import Mathlib

/-!
# LXD agent event gateway, hotplug reactor and directory initialisation

A shallow embedding of `lxd-agent/events.go` (`eventsSocket`, `eventsPost`,
`eventsProcess`) and of `lxd/sys/fs.go` (`OS.initDirs`), together with the parts
of the Go standard library they call (`strings.Split`, `strings.Join`,
`filepath.IsAbs`, `filepath.Clean`, `filepath.Join`, `os.Stat`, `os.Lstat`,
`os.Mkdir`, `os.Chmod`, `os.MkdirAll`) and the path resolution of the kernel
under them.

Go strings are byte sequences; they are embedded as `List Char`.  The only bytes
the code inspects are `/`, `.` and `,`, which never occur inside a multi-byte
UTF-8 sequence, so working on characters or on bytes gives the same result.
-/

namespace LxdAgent

/-- A Go string, as the sequence of its characters. -/
abbrev GoString := List Char

/-! ## `strings` -/

/-- Go `strings.Split(s, sep)` for a one-byte separator: the pieces of `s`
between consecutive separators, empty pieces included; never the empty list. -/
def stringsSplit (s : GoString) (sep : Char) : List GoString :=
  match s with
  | [] => [[]]
  | c :: t =>
    if c = sep then [] :: stringsSplit t sep
    else
      match stringsSplit t sep with
      | [] => [[c]]
      | h :: r => (c :: h) :: r

/-- Go `strings.Join(elems, sep)`. -/
def stringsJoin (elems : List GoString) (sep : GoString) : GoString :=
  match elems with
  | [] => []
  | [e] => e
  | e :: r => e ++ sep ++ stringsJoin r sep

/-! ## `path/filepath` (Unix) -/

/-- Go `os.IsPathSeparator` on Unix. -/
def isPathSeparator (c : Char) : Bool := c = '/'

/-- Go `filepath.IsAbs` on Unix: the path starts with a slash. -/
def filepathIsAbs (path : GoString) : Bool :=
  match path with
  | c :: _ => isPathSeparator c
  | [] => false

/-- The inner loop of the `..` case of `filepath.Clean`: after `out.w--` the
byte at index `out.w` is the byte just dropped (`last`); keep dropping while
`out.w > dotdot` and that byte is not a separator.  The buffer is held
reversed, so its head is the byte at index `out.w - 1`. -/
def cleanBacktrack (dotdot : Nat) : List Char → Char → List Char
  | [], _ => []
  | c :: t, last =>
    if (c :: t).length > dotdot && !isPathSeparator last then cleanBacktrack dotdot t c
    else c :: t

/-- The main loop of Go `filepath.Clean`.  `rest` is `path[r:]`, `out` is the
output buffer `buf[:w]` reversed, `dotdot` is the index where `..` must stop.
Every iteration consumes at least one byte of `rest`, so `rest.length`
iterations are enough; `fuel` counts them. -/
def cleanLoop (rooted : Bool) : Nat → List Char → List Char → Nat → List Char
  | 0, _, out, _ => out
  | fuel + 1, rest, out, dotdot =>
    match rest with
    | [] => out
    | c :: t =>
      if isPathSeparator c then
        -- empty path element
        cleanLoop rooted fuel t out dotdot
      else if c = '.' && (t.isEmpty || isPathSeparator (t.headD ' ')) then
        -- . element
        cleanLoop rooted fuel t out dotdot
      else if c = '.' && t.headD ' ' = '.' &&
          ((t.drop 1).isEmpty || isPathSeparator ((t.drop 1).headD ' ')) then
        -- .. element: remove to last separator
        if out.length > dotdot then
          -- can backtrack
          match out with
          | [] => cleanLoop rooted fuel (t.drop 1) out dotdot
          | l :: o => cleanLoop rooted fuel (t.drop 1) (cleanBacktrack dotdot o l) dotdot
        else if !rooted then
          -- cannot backtrack, but not rooted, so append .. element
          let out1 := if out.length > 0 then '/' :: out else out
          let out2 := '.' :: '.' :: out1
          cleanLoop rooted fuel (t.drop 1) out2 out2.length
        else
          cleanLoop rooted fuel (t.drop 1) out dotdot
      else
        -- real path element: add slash if needed, then copy the element
        let out1 :=
          if (rooted && out.length != 1) || (!rooted && out.length != 0) then '/' :: out
          else out
        let elem := (c :: t).takeWhile (fun x => !isPathSeparator x)
        cleanLoop rooted fuel ((c :: t).dropWhile (fun x => !isPathSeparator x))
          (elem.reverse ++ out1) dotdot

/-- Go `filepath.Clean` on Unix (no volume name, `FromSlash` is the identity). -/
def filepathClean (path : GoString) : GoString :=
  match path with
  | [] => ['.']
  | c :: t =>
    let rooted := isPathSeparator c
    let out := if rooted then
        cleanLoop rooted t.length t ['/'] 1
      else
        cleanLoop rooted (c :: t).length (c :: t) [] 0
    -- Turn empty string into "."
    if out.isEmpty then ['.'] else out.reverse

/-- Go `filepath.Join` on Unix: drop leading empty elements, join the rest with
slashes and `Clean` the result; the empty string when every element is empty. -/
def filepathJoin (elem : List GoString) : GoString :=
  match elem with
  | [] => []
  | e :: r => if e = [] then filepathJoin r else filepathClean (stringsJoin (e :: r) ['/'])

/-! ## The filesystem and the `os` calls

A filesystem state holds the working directory of the process and the existing
nodes, each under its resolved location: the names from the root directory
down.  A node is a directory, a regular file or a symbolic link.  A path is
resolved as the kernel does it, component by component from the root or from
the working directory: an empty component and `.` stay in place, `..` goes to
the parent of the directory reached, a missing component gives `ENOENT`, a
regular file with components still to come gives `ENOTDIR`, a symbolic link is
replaced by its target, at most 40 times.  The process may access every node
(the daemon and the agent run as root). -/

/-- A resolved location: the names from the root directory down to the node. -/
abbrev Path := List GoString

/-- What exists at a location. -/
inductive Node where
  | dir (mode : Nat)
  | file (mode : Nat)
  | symlink (target : GoString)
  deriving DecidableEq, Repr

/-- True for a directory. -/
def Node.isDir : Node → Bool
  | .dir _ => true
  | _ => false

/-- The same node with other permission bits. -/
def Node.setMode : Node → Nat → Node
  | .dir _, m => .dir m
  | .file _, m => .file m
  | .symlink t, _ => .symlink t

/-- The error numbers the modelled calls return. -/
inductive Errno where
  | EEXIST
  | ENOENT
  | ENOTDIR
  | ELOOP
  | ENAMETOOLONG
  deriving DecidableEq, Repr

/-- Equality of call results is decidable. -/
instance instDecidableEqResult {ε α : Type} [DecidableEq ε] [DecidableEq α] :
    DecidableEq (Except ε α)
  | .ok a, .ok b => if h : a = b then isTrue (by rw [h]) else isFalse (fun hh => h (by cases hh; rfl))
  | .error a, .error b =>
    if h : a = b then isTrue (by rw [h]) else isFalse (fun hh => h (by cases hh; rfl))
  | .ok _, .error _ => isFalse (fun hh => by cases hh)
  | .error _, .ok _ => isFalse (fun hh => by cases hh)

/-- Go `os.IsExist`. -/
def osIsExist (e : Errno) : Bool := e = Errno.EEXIST

/-- Go `os.IsNotExist`. -/
def osIsNotExist (e : Errno) : Bool := e = Errno.ENOENT

/-- A filesystem state: the working directory and the nodes by location (the
first entry of a location is the one in use; the root directory is the entry
of the empty location). -/
structure FS where
  cwd : Path
  entries : List (Path × Node)
  deriving DecidableEq, Repr

/-- The node of a location in a list of entries, if any. -/
def lookupEntry : List (Path × Node) → Path → Option Node
  | [], _ => none
  | (k, n) :: r, p => if k = p then some n else lookupEntry r p

/-- Put a node at a location: in place when the location exists, else as a new entry. -/
def setEntry : List (Path × Node) → Path → Node → List (Path × Node)
  | [], p, n => [(p, n)]
  | (k, m) :: r, p, n => if k = p then (k, n) :: r else (k, m) :: setEntry r p n

/-- The node at a location, if any. -/
def fsLookup (fs : FS) (p : Path) : Option Node := lookupEntry fs.entries p

/-- The filesystem with a node put at a location. -/
def fsSet (fs : FS) (p : Path) (n : Node) : FS := { fs with entries := setEntry fs.entries p n }

/-- Where a walk stops: at a node, with an error, or at a symbolic link that
has to be followed from directory `dir` with the components `rest` still to come. -/
inductive WalkResult where
  | found (loc : Path) (node : Node)
  | failed (err : Errno)
  | link (dir : Path) (target : GoString) (rest : List GoString)
  deriving DecidableEq, Repr

/-- Walk the components of a path from the directory `cur`, up to the first
symbolic link that has to be followed.  The link named by the last component
is followed only when `follow` is set (`stat`) and returned as it is otherwise
(`lstat`); any component after it, also an empty one from a trailing slash,
makes it followed. -/
def walkSeg (fs : FS) (follow : Bool) : Path → List GoString → WalkResult
  | cur, [] =>
    match fsLookup fs cur with
    | some n => WalkResult.found cur n
    | none => WalkResult.failed Errno.ENOENT
  | cur, c :: rest =>
    if c = [] ∨ c = ".".toList then walkSeg fs follow cur rest
    else if c = "..".toList then walkSeg fs follow cur.dropLast rest
    else
      match fsLookup fs (cur ++ [c]) with
      | none => WalkResult.failed Errno.ENOENT
      | some (Node.dir _) => walkSeg fs follow (cur ++ [c]) rest
      | some (Node.file m) =>
        if rest = [] then WalkResult.found (cur ++ [c]) (Node.file m)
        else WalkResult.failed Errno.ENOTDIR
      | some (Node.symlink t) =>
        if rest = [] ∧ follow = false then WalkResult.found (cur ++ [c]) (Node.symlink t)
        else WalkResult.link cur t rest

/-- The number of symbolic links the kernel follows in one resolution (`MAXSYMLINKS`). -/
def maxSymlinks : Nat := 40

/-- Walk the components of a path from the directory `cur`, following symbolic
links: a link is replaced by the components of its target, taken from the root
when the target is absolute and from the directory of the link otherwise;
`budget` is the number of links that may still be followed, then `ELOOP`. -/
def walk (fs : FS) (follow : Bool) : Nat → Path → List GoString → Except Errno (Path × Node)
  | 0, cur, comps =>
    match walkSeg fs follow cur comps with
    | WalkResult.found loc node => .ok (loc, node)
    | WalkResult.failed err => .error err
    | WalkResult.link _ _ _ => .error Errno.ELOOP
  | budget + 1, cur, comps =>
    match walkSeg fs follow cur comps with
    | WalkResult.found loc node => .ok (loc, node)
    | WalkResult.failed err => .error err
    | WalkResult.link dir target rest =>
      if target = [] then .error Errno.ENOENT
      else
        walk fs follow budget (if filepathIsAbs target then [] else dir)
          (stringsSplit target '/' ++ rest)

/-- The directory a path is resolved from. -/
def startDir (fs : FS) (path : GoString) : Path := if filepathIsAbs path then [] else fs.cwd

/-- Path resolution: the location and the node a path names; the empty path
names nothing. -/
def namei (fs : FS) (follow : Bool) (path : GoString) : Except Errno (Path × Node) :=
  if path = [] then .error Errno.ENOENT
  else walk fs follow maxSymlinks (startDir fs path) (stringsSplit path '/')

/-- Go `os.Stat` (stat(2)): the node the path names, symbolic links followed. -/
def osStat (fs : FS) (path : GoString) : Except Errno Node :=
  match namei fs true path with
  | .ok (_, n) => .ok n
  | .error e => .error e

/-- Go `os.Lstat` (lstat(2)): as `os.Stat`, but a symbolic link named by the
last component is returned as it is. -/
def osLstat (fs : FS) (path : GoString) : Except Errno Node :=
  match namei fs false path with
  | .ok (_, n) => .ok n
  | .error e => .error e

/-- The permission bits a new directory receives: `perm &^ umask`. -/
def maskedMode (perm umask : Nat) : Nat := perm ^^^ (perm &&& umask)

/-- The components of a path without the empty ones that trailing slashes leave. -/
def dropTrailingEmpty (comps : List GoString) : List GoString :=
  (comps.reverse.dropWhile (fun c => c.isEmpty)).reverse

/-- Go `os.Mkdir` (mkdir(2)).  The parent is resolved with symbolic links
followed; a failure there is the error, a parent that is not a directory gives
`ENOTDIR`.  A path without a last name (only slashes), a last name `.` or `..`,
and a last name that exists, be it a directory, a file or a symbolic link of
any kind, give `EEXIST`.  Otherwise the directory is created with the
requested mode masked by the umask. -/
def osMkdir (umask : Nat) (fs : FS) (path : GoString) (perm : Nat) : FS × Option Errno :=
  if path = [] then (fs, some Errno.ENOENT)
  else
    match walk fs true maxSymlinks (startDir fs path)
        (dropTrailingEmpty (stringsSplit path '/')).dropLast with
    | .error e => (fs, some e)
    | .ok (loc, Node.dir _) =>
      match (dropTrailingEmpty (stringsSplit path '/')).getLast? with
      | none => (fs, some Errno.EEXIST)
      | some name =>
        if name = ".".toList ∨ name = "..".toList then (fs, some Errno.EEXIST)
        else
          match fsLookup fs (loc ++ [name]) with
          | some _ => (fs, some Errno.EEXIST)
          | none => (fsSet fs (loc ++ [name]) (Node.dir (maskedMode perm umask)), none)
    | .ok (_, _) => (fs, some Errno.ENOTDIR)

/-- Go `os.Chmod` (chmod(2)): resolves the path with symbolic links followed,
fails with the error of the resolution (`ENOENT` for a missing path and for a
dangling symbolic link) and otherwise sets the permission bits exactly (the
umask plays no part). -/
def osChmod (fs : FS) (path : GoString) (mode : Nat) : FS × Option Errno :=
  match namei fs true path with
  | .error e => (fs, some e)
  | .ok (loc, n) => (fsSet fs loc (n.setMode mode), none)

/-- The index `i` of Go `os.MkdirAll`: the length of the path without its
trailing separators. -/
def mkdirAllSkip (path : GoString) : Nat :=
  (path.reverse.dropWhile isPathSeparator).length

/-- The index `j` of Go `os.MkdirAll`: from `i`, scan backward over the last element. -/
def mkdirAllScan (path : GoString) : Nat :=
  (((path.take (mkdirAllSkip path)).reverse).dropWhile (fun c => !isPathSeparator c)).length

/-- Go `os.MkdirAll` (`os/path.go`; `fixRootDirectory` is the identity on
Unix), with the recursion depth bounded by `fuel`; the parent `path[:j-1]` is
strictly shorter than the path, so `path.length + 1` is enough. -/
def osMkdirAllAux (umask : Nat) : Nat → FS → GoString → Nat → FS × Option Errno
  | 0, fs, _, _ => (fs, some Errno.ENAMETOOLONG)
  | fuel + 1, fs, path, perm =>
    -- Fast path: if we can tell whether path is a directory or file, stop with success or error.
    match osStat fs path with
    | .ok (Node.dir _) => (fs, none)
    | .ok _ => (fs, some Errno.ENOTDIR)
    | .error _ =>
      -- Slow path: make sure parent exists and then call Mkdir for path.
      let j := mkdirAllScan path
      let r := if j > 1 then osMkdirAllAux umask fuel fs (path.take (j - 1)) perm else (fs, none)
      match r with
      | (fs1, some e) => (fs1, some e)
      | (fs1, none) =>
        -- Parent now exists; invoke Mkdir and use its result.
        match osMkdir umask fs1 path perm with
        | (fs2, none) => (fs2, none)
        | (fs2, some e) =>
          -- Handle arguments like "foo/." by double-checking that directory doesn't exist.
          match osLstat fs2 path with
          | .ok (Node.dir _) => (fs2, none)
          | _ => (fs2, some e)

/-- Go `os.MkdirAll`. -/
def osMkdirAll (umask : Nat) (fs : FS) (path : GoString) (perm : Nat) : FS × Option Errno :=
  osMkdirAllAux umask (path.length + 1) fs path perm

/-! ## `lxd/sys/fs.go` -/

/-- The fields of `sys.OS` that `initDirs` reads. -/
structure OS where
  VarDir : GoString
  CacheDir : GoString
  LogDir : GoString

/-- The errors `initDirs` returns: which step failed, on which path, and why. -/
inductive InitDirsError where
  | failedToInitDir (path : GoString) (err : Errno)
  | failedToChmodDir (path : GoString) (err : Errno)
  deriving DecidableEq, Repr

/-- The `dirs` table of `initDirs`: path and mode, in source order. -/
def initDirsTable (s : OS) : List (GoString × Nat) :=
  [ (s.VarDir, 0o711),
    (s.CacheDir, 0o700),
    (filepathJoin [s.VarDir, "containers".toList], 0o711),
    (filepathJoin [s.VarDir, "virtual-machines".toList], 0o711),
    (filepathJoin [s.VarDir, "database".toList], 0o700),
    (filepathJoin [s.VarDir, "devices".toList], 0o711),
    (filepathJoin [s.VarDir, "devlxd".toList], 0o755),
    (filepathJoin [s.VarDir, "disks".toList], 0o700),
    (s.LogDir, 0o700),
    (filepathJoin [s.VarDir, "networks".toList], 0o711),
    (filepathJoin [s.VarDir, "security".toList], 0o700),
    (filepathJoin [s.VarDir, "security".toList, "apparmor".toList], 0o700),
    (filepathJoin [s.VarDir, "security".toList, "apparmor".toList, "cache".toList], 0o700),
    (filepathJoin [s.VarDir, "security".toList, "apparmor".toList, "profiles".toList], 0o700),
    (filepathJoin [s.VarDir, "security".toList, "seccomp".toList], 0o700),
    (filepathJoin [s.VarDir, "shmounts".toList], 0o711),
    (filepathJoin [s.VarDir, "snapshots".toList], 0o700),
    (filepathJoin [s.VarDir, "virtual-machines-snapshots".toList], 0o700),
    (filepathJoin [s.VarDir, "storage-pools".toList], 0o711) ]

/-- The `for _, dir := range dirs` loop of `initDirs`, threading the filesystem. -/
def initDirsLoop (umask : Nat) : FS → List (GoString × Nat) → FS × Option InitDirsError
  | fs, [] => (fs, none)
  | fs, (path, mode) :: rest =>
    match osMkdir umask fs path mode with
    | (fs1, none) => initDirsLoop umask fs1 rest
    | (fs1, some err) =>
      if !osIsExist err then (fs1, some (InitDirsError.failedToInitDir path err))
      else
        match osChmod fs1 path mode with
        | (fs2, none) => initDirsLoop umask fs2 rest
        | (fs2, some err2) =>
          if !osIsNotExist err2 then (fs2, some (InitDirsError.failedToChmodDir path err2))
          else initDirsLoop umask fs2 rest

/-- The method `(*OS).initDirs`: the filesystem it leaves and the error it returns. -/
def initDirs (s : OS) (umask : Nat) (fs : FS) : FS × Option InitDirsError :=
  initDirsLoop umask fs (initDirsTable s)

/-! ## `lxd-agent/events.go`: `eventsProcess` -/

/-- Go `api.Event`, the fields the agent reads (`type` is the Go field `Type`). -/
structure Event where
  type : GoString
  Metadata : GoString
  deriving DecidableEq, Repr

/-- Go `instancetype.VMAgentMount`, the fields `eventsProcess` reads. -/
structure VMAgentMount where
  Source : GoString
  Options : List GoString
  deriving DecidableEq, Repr

/-- A Go `map[string]string`. -/
abbrev StringMap := List (GoString × GoString)

/-- Reading a map: the zero value `""` for a missing key (also on a nil map). -/
def mapGet : StringMap → GoString → GoString
  | [], _ => []
  | (k, v) :: r, key => if k = key then v else mapGet r key

/-- Assigning a map entry. -/
def mapSet : StringMap → GoString → GoString → StringMap
  | [], key, v => [(key, v)]
  | (k, w) :: r, key, v => if k = key then (k, v) :: r else (k, w) :: mapSet r key v

/-- The local type `deviceEvent` of `eventsProcess`. -/
structure deviceEvent where
  Action : GoString
  Config : StringMap
  Name : GoString
  Mount : VMAgentMount
  deriving DecidableEq, Repr

/-- What `eventsProcess` does to the outside world. -/
inductive Effect where
  | mkdirAll (path : GoString) (perm : Nat)
  | runCommand (name : GoString) (args : List GoString)
  | sleep (milliseconds : Nat)
  | logInfo (msg : GoString) (ctx : List (GoString × GoString))
  deriving DecidableEq, Repr

/-- One step of a run: the effect and the filesystem state in which it is performed. -/
structure Step where
  fs : FS
  eff : Effect
  deriving DecidableEq, Repr

/-- The attempts `eventsProcess` makes: `for i := 0; i < 5; i++`. -/
def mountAttempts : Nat := 5

/-- The pause after a failed attempt, in milliseconds. -/
def mountRetryDelay : Nat := 500

/-- The retry loop of `eventsProcess`.  `remaining` is `5 - i`; `mount i` is the
error of the `i`-th run of the mount utility (`none` for success); `err` is the
variable `err` on entry. -/
def mountLoop (mount : Nat → Option GoString) (fs : FS) (args : List GoString)
    (ctx : List (GoString × GoString)) : Nat → Nat → Option GoString → List Step
  | 0, _, err =>
    [⟨fs, Effect.logInfo "Failed to mount hotplug".toList
      (ctx ++ [("err".toList, err.getD "<nil>".toList)])⟩]
  | remaining + 1, i, _ =>
    match mount i with
    | none =>
      [⟨fs, Effect.runCommand "mount".toList args⟩,
       ⟨fs, Effect.logInfo "Mounted hotplug".toList ctx⟩]
    | some e =>
      ⟨fs, Effect.runCommand "mount".toList args⟩ ::
      ⟨fs, Effect.sleep mountRetryDelay⟩ ::
      mountLoop mount fs args ctx remaining (i + 1) (some e)

/-- The mount source `eventsProcess` computes. -/
def mntSource (e : deviceEvent) : GoString :=
  if e.Mount.Source ≠ [] then e.Mount.Source else "lxd_".toList ++ e.Name

/-- The map `e.Config` after the normalisation of `path`. -/
def normalizedConfig (e : deviceEvent) : StringMap :=
  if !filepathIsAbs (mapGet e.Config "path".toList) then
    mapSet e.Config "path".toList (filepathJoin ["/".toList, mapGet e.Config "path".toList])
  else e.Config

/-- The mount target: `e.Config["path"]` after the normalisation. -/
def mountTarget (e : deviceEvent) : GoString :=
  mapGet (normalizedConfig e) "path".toList

/-- The argument list `eventsProcess` builds for the mount utility. -/
def mountArgs (e : deviceEvent) : List GoString :=
  (if e.Mount.Options.length > 0 then ["-o".toList, stringsJoin e.Mount.Options ",".toList]
    else []) ++
  ["-t".toList, "virtiofs".toList, mntSource e, mountTarget e]

/-- The function `eventsProcess`.  `unmarshal` is `json.Unmarshal` into
`deviceEvent` (`none` for an error), `mount` the outcomes of the mount
utility, `fs` the filesystem at the start. -/
def eventsProcess (unmarshal : GoString → Option deviceEvent) (umask : Nat)
    (mount : Nat → Option GoString) (fs : FS) (event : Event) : List Step :=
  -- We currently only need to react to device events.
  if event.type ≠ "device".toList then []
  else
    match unmarshal event.Metadata with
    | none => []
    | some e =>
      -- Only care about device additions, we don't try to handle remove.
      if e.Action ≠ "added".toList then []
      -- We only handle disk hotplug.
      else if mapGet e.Config "type".toList ≠ "disk".toList then []
      -- And only for path based devices.
      else if mapGet e.Config "path".toList = [] then []
      else
        let ctx := [("type".toList, "virtiofs".toList), ("source".toList, mntSource e),
          ("path".toList, mapGet e.Config "path".toList)]
        let fs1 := (osMkdirAll umask fs (mountTarget e) 0o755).1
        ⟨fs, Effect.mkdirAll (mountTarget e) 0o755⟩ ::
          mountLoop mount fs1 (mountArgs e) ctx mountAttempts 0 none

/-! ## `lxd-agent/events.go`: `eventsPost` -/

/-- The responses `eventsPost` returns. -/
inductive Response where
  | internalError (err : GoString)
  | syncResponse (success : Bool)
  deriving DecidableEq, Repr

/-- What `eventsPost` calls. -/
inductive PostCall where
  | send (projectName : GoString) (eventType : GoString) (metadata : GoString)
  | goEventsProcess (event : Event)
  deriving DecidableEq, Repr

/-- The function `eventsPost`.  `decode` is the JSON decoding of the body into
`api.Event`, `send` the error `d.events.Send` returns (`none` for success). -/
def eventsPost (decode : GoString → Except GoString Event)
    (send : GoString → GoString → GoString → Option GoString) (body : GoString) :
    Response × List PostCall :=
  match decode body with
  | .error err => (Response.internalError err, [])
  | .ok event =>
    match send [] event.type event.Metadata with
    | some err => (Response.internalError err, [PostCall.send [] event.type event.Metadata])
    | none =>
      -- Handle device related actions locally.
      (Response.syncResponse true,
        [PostCall.send [] event.type event.Metadata, PostCall.goEventsProcess event])

/-- A whole request: `eventsPost` and then every goroutine it started, each run
by `eventsProcess`. -/
def eventsPostAndReact (decode : GoString → Except GoString Event)
    (send : GoString → GoString → GoString → Option GoString)
    (unmarshal : GoString → Option deviceEvent) (umask : Nat)
    (mount : Nat → Option GoString) (fs : FS) (body : GoString) :
    Response × List PostCall × List (List Step) :=
  let r := eventsPost decode send body
  (r.1, r.2, r.2.filterMap (fun c =>
    match c with
    | PostCall.goEventsProcess event => some (eventsProcess unmarshal umask mount fs event)
    | PostCall.send _ _ _ => none))

/-! ## `lxd-agent/events.go`: `eventsSocket` -/

/-- A network connection, by identity. -/
abbrev Conn := Nat

/-- Go `events.EventListenerConnection`: the two implementations the agent builds. -/
inductive ListenerConnection where
  | websocket (conn : Conn)
  | stream (conn : Conn)
  deriving DecidableEq, Repr

/-- What `eventsSocket` reads from the request. -/
structure SocketRequest where
  formType : GoString
  headerUpgrade : GoString

/-- The collaborators of `eventsSocket`: the result of `ws.Upgrader.Upgrade`;
whether the response writer is an `http.Hijacker` and, if so, the result of
`Hijack`; the error of `events.NewStreamListenerConnection`; the error of
`AddListener` for the connection and type list it is given. -/
structure SocketEnv where
  upgrade : Except GoString Conn
  hijacker : Option (Except GoString Conn)
  newStreamListenerConnection : Conn → Option GoString
  addListener : ListenerConnection → List GoString → Option GoString

/-- What `eventsSocket` calls. -/
inductive SocketCall where
  | upgrade
  | hijack
  | newWebsocketListenerConnection (conn : Conn)
  | newStreamListenerConnection (conn : Conn)
  | addListener (projectName : GoString) (allProjects : Bool)
      (connection : ListenerConnection) (eventTypes : List GoString)
  | listenerWait
  | connClose (conn : Conn)
  deriving DecidableEq, Repr

/-- The default of the `type` parameter. -/
def defaultTypeStr : GoString := "logging,operation,lifecycle,config,device".toList

/-- The value of `typeStr` after the default is applied. -/
def typeStrOf (r : SocketRequest) : GoString :=
  if r.formType = [] then defaultTypeStr else r.formType

/-- The end of `eventsSocket`, from `AddListener` on. -/
def socketListen (env : SocketEnv) (r : SocketRequest) (lc : ListenerConnection) :
    Option GoString × List SocketCall :=
  let types := stringsSplit (typeStrOf r) ','
  match env.addListener lc types with
  | some err => (some err, [SocketCall.addListener [] true lc types])
  | none => (none, [SocketCall.addListener [] true lc types, SocketCall.listenerWait])

/-- The function `eventsSocket`: the error it returns and the calls it makes,
in order (a deferred `conn.Close()` comes last). -/
def eventsSocket (env : SocketEnv) (r : SocketRequest) : Option GoString × List SocketCall :=
  if r.headerUpgrade = "websocket".toList then
    -- Upgrade the connection to websocket
    match env.upgrade with
    | .error err => (some err, [SocketCall.upgrade])
    | .ok conn =>
      let rest := socketListen env r (ListenerConnection.websocket conn)
      (rest.1, [SocketCall.upgrade, SocketCall.newWebsocketListenerConnection conn] ++ rest.2
        ++ [SocketCall.connClose conn])
  else
    match env.hijacker with
    | none => (some "Missing implemented http.Hijacker interface".toList, [])
    | some (.error err) => (some err, [SocketCall.hijack])
    | some (.ok conn) =>
      match env.newStreamListenerConnection conn with
      | some err =>
        (some err, [SocketCall.hijack, SocketCall.newStreamListenerConnection conn,
          SocketCall.connClose conn])
      | none =>
        let rest := socketListen env r (ListenerConnection.stream conn)
        (rest.1, [SocketCall.hijack, SocketCall.newStreamListenerConnection conn] ++ rest.2
          ++ [SocketCall.connClose conn])

/-! ## Observations on a run of `eventsProcess` -/

/-- An invocation of the mount utility. -/
def Effect.isMount : Effect → Bool
  | .runCommand name _ => name = "mount".toList
  | _ => false

/-- Any subprocess invocation. -/
def Effect.isRunCommand : Effect → Bool
  | .runCommand _ _ => true
  | _ => false

/-- A directory creation. -/
def Effect.isMkdirAll : Effect → Bool
  | .mkdirAll _ _ => true
  | _ => false

/-- A pause. -/
def Effect.isSleep : Effect → Bool
  | .sleep _ => true
  | _ => false

/-- The success record `Mounted hotplug`. -/
def Effect.isSuccessRecord : Effect → Bool
  | .logInfo msg _ => msg = "Mounted hotplug".toList
  | _ => false

/-- The failure record `Failed to mount hotplug`. -/
def Effect.isFailureRecord : Effect → Bool
  | .logInfo msg _ => msg = "Failed to mount hotplug".toList
  | _ => false

/-- Any log record. -/
def Effect.isLog : Effect → Bool
  | .logInfo _ _ => true
  | _ => false

/-- The number of steps of a run whose effect satisfies `p`. -/
def countEffects (p : Effect → Bool) (steps : List Step) : Nat :=
  (steps.filter (fun s => p s.eff)).length

/-- The time a run spends pausing, in milliseconds. -/
def totalSleep : List Step → Nat
  | [] => 0
  | ⟨_, Effect.sleep ms⟩ :: r => ms + totalSleep r
  | _ :: r => totalSleep r

/-- The event passes every filter of `eventsProcess` and decodes to `e`. -/
def Qualifies (unmarshal : GoString → Option deviceEvent) (event : Event) (e : deviceEvent) :
    Prop :=
  event.type = "device".toList ∧ unmarshal event.Metadata = some e ∧
    e.Action = "added".toList ∧ mapGet e.Config "type".toList = "disk".toList ∧
    mapGet e.Config "path".toList ≠ []

/-- The mount utility succeeds first at attempt `k`, counted from 1. -/
def FirstSuccessAt (mount : Nat → Option GoString) (k : Nat) : Prop :=
  (∀ j, j + 1 < k → mount j ≠ none) ∧ mount (k - 1) = none

/-- A device event for a disk `disk0` to be mounted at the relative path `data`. -/
def sampleDeviceEvent : deviceEvent :=
  { Action := "added".toList,
    Config := [("type".toList, "disk".toList), ("path".toList, "data".toList)],
    Name := "disk0".toList,
    Mount := { Source := [], Options := [] } }

/-- The event carrying `sampleDeviceEvent`. -/
def sampleEvent : Event := { type := "device".toList, Metadata := "device metadata".toList }

/-- A decoder that yields `sampleDeviceEvent`. -/
def sampleUnmarshal : GoString → Option deviceEvent := fun _ => some sampleDeviceEvent

/-- A filesystem with the root directory only. -/
def rootOnly : FS := { cwd := [], entries := [([], Node.dir 0o755)] }

/-- A mount utility that fails on attempts 1 to 4 and succeeds on attempt 5. -/
def failsFourTimes : Nat → Option GoString :=
  fun i => if i < 4 then some "exit status 32".toList else none

/-- A mount utility that always fails. -/
def alwaysFails : Nat → Option GoString := fun _ => some "exit status 32".toList

/-- The connections a run of `eventsSocket` registered with `AddListener`. -/
def registeredConnections : List SocketCall → List ListenerConnection
  | [] => []
  | SocketCall.addListener _ _ lc _ :: r => lc :: registeredConnections r
  | _ :: r => registeredConnections r

/-- The event type lists a run of `eventsSocket` passed to `AddListener`. -/
def registeredTypes : List SocketCall → List (List GoString)
  | [] => []
  | SocketCall.addListener _ _ _ types :: r => types :: registeredTypes r
  | _ :: r => registeredTypes r

/-- The number of transports a run of `eventsSocket` tried to establish. -/
def transportAttempts : List SocketCall → Nat
  | [] => 0
  | SocketCall.upgrade :: r => 1 + transportAttempts r
  | SocketCall.hijack :: r => 1 + transportAttempts r
  | _ :: r => transportAttempts r

/-- The spec's filter set: the non-empty comma-separated tokens of the value. -/
def nonEmptyTokens (value : GoString) : List GoString :=
  (stringsSplit value ',').filter (fun t => !t.isEmpty)

/-- The fixed default set of event types. -/
def defaultTypes : List GoString :=
  ["logging".toList, "operation".toList, "lifecycle".toList, "config".toList, "device".toList]

/-- Collaborators for which every call succeeds. -/
def allSucceed : SocketEnv :=
  { upgrade := .ok 7, hijacker := some (.ok 8),
    newStreamListenerConnection := fun _ => none, addListener := fun _ _ => none }

/-- A response writer that is an `http.Hijacker` whose `Hijack` fails. -/
def hijackFails : SocketEnv :=
  { upgrade := .ok 7, hijacker := some (.error "hijack failed".toList),
    newStreamListenerConnection := fun _ => none, addListener := fun _ _ => none }

/-- True when the path names a directory, symbolic links followed. -/
def isDirectory (fs : FS) (path : GoString) : Bool :=
  match osStat fs path with
  | .ok (Node.dir _) => true
  | _ => false

/-- A filesystem in which `/data` is a regular file. -/
def fileAtData : FS :=
  { cwd := [], entries := [([], Node.dir 0o755), (["data".toList], Node.file 0o644)] }

/-- A filesystem in which `/file` is a regular file. -/
def fileAtFile : FS :=
  { cwd := [], entries := [([], Node.dir 0o755), (["file".toList], Node.file 0o644)] }

/-- A filesystem in which `/link` is a symbolic link to the missing `/gone`. -/
def danglingLink : FS :=
  { cwd := [], entries := [([], Node.dir 0o755), (["link".toList], Node.symlink "/gone".toList)] }

/-- A mount utility that succeeds at once. -/
def alwaysSucceeds : Nat → Option GoString := fun _ => none

/-- A daemon configuration with the usual directories. -/
def sampleOS : OS :=
  { VarDir := "/var/lib/lxd".toList, CacheDir := "/var/cache/lxd".toList,
    LogDir := "/var/log/lxd".toList }

/-- A filesystem with the parents of the directories of `sampleOS`. -/
def sampleVar : FS :=
  { cwd := [],
    entries :=
      [([], Node.dir 0o755), (["var".toList], Node.dir 0o755),
       (["var".toList, "lib".toList], Node.dir 0o755),
       (["var".toList, "cache".toList], Node.dir 0o755),
       (["var".toList, "log".toList], Node.dir 0o755)] }

/-- The filesystem `sampleVar` with the directory of the daemon and, in it, a
regular file in the place of the directory `devlxd`. -/
def sampleVarWithFile : FS :=
  fsSet (fsSet sampleVar ["var".toList, "lib".toList, "lxd".toList] (Node.dir 0o711))
    ["var".toList, "lib".toList, "lxd".toList, "devlxd".toList] (Node.file 0o644)

/-- The filesystem `sampleVar` with a symbolic link in the place of the log
directory, to a volume that is not there. -/
def sampleVarWithLink : FS :=
  fsSet sampleVar ["var".toList, "log".toList, "lxd".toList] (Node.symlink "/mnt/logs/lxd".toList)

/-! ## Theorems -/

theorem eventsProcess_of_qualifies (unmarshal : GoString → Option deviceEvent) (umask : Nat)
    (mount : Nat → Option GoString) (fs : FS) (event : Event) (e : deviceEvent)
    (h : Qualifies unmarshal event e) :
    eventsProcess unmarshal umask mount fs event =
      ⟨fs, Effect.mkdirAll (mountTarget e) 0o755⟩ ::
        mountLoop mount (osMkdirAll umask fs (mountTarget e) 0o755).1 (mountArgs e)
          [("type".toList, "virtiofs".toList), ("source".toList, mntSource e),
            ("path".toList, mapGet e.Config "path".toList)] mountAttempts 0 none := by
  obtain ⟨h1, h2, h3, h4, h5⟩ := h
  simp only [eventsProcess, h1, h2, h3, h4]
  simp
  exact h5

theorem sample_qualifies : Qualifies sampleUnmarshal sampleEvent sampleDeviceEvent := by
  refine ⟨rfl, rfl, rfl, ?_, ?_⟩ <;> decide


theorem countEffects_nil (p : Effect → Bool) : countEffects p [] = 0 := rfl

theorem countEffects_cons (p : Effect → Bool) (s : Step) (l : List Step) :
    countEffects p (s :: l) = (if p s.eff then 1 else 0) + countEffects p l := by
  unfold countEffects
  by_cases h : p s.eff <;> simp [List.filter, h]; omega

theorem mountLoop_success (mount : Nat → Option GoString) (fs : FS) (args : List GoString)
    (ctx : List (GoString × GoString)) :
    ∀ (m remaining i : Nat) (err : Option GoString), m < remaining →
      (∀ j, j < m → mount (i + j) ≠ none) → mount (i + m) = none →
      countEffects Effect.isMount (mountLoop mount fs args ctx remaining i err) = m + 1 ∧
      countEffects Effect.isRunCommand (mountLoop mount fs args ctx remaining i err) = m + 1 ∧
      countEffects Effect.isSleep (mountLoop mount fs args ctx remaining i err) = m ∧
      totalSleep (mountLoop mount fs args ctx remaining i err) = mountRetryDelay * m ∧
      countEffects Effect.isSuccessRecord (mountLoop mount fs args ctx remaining i err) = 1 ∧
      countEffects Effect.isFailureRecord (mountLoop mount fs args ctx remaining i err) = 0 ∧
      countEffects Effect.isLog (mountLoop mount fs args ctx remaining i err) = 1 := by
  intro m
  induction m with
  | zero =>
    intro remaining i err hlt _ hs
    obtain ⟨r, rfl⟩ : ∃ r, remaining = r + 1 := ⟨remaining - 1, by omega⟩
    have hs0 : mount i = none := by simpa using hs
    simp [mountLoop, hs0, countEffects_cons, countEffects_nil, totalSleep, Effect.isMount,
      Effect.isRunCommand, Effect.isSleep, Effect.isSuccessRecord, Effect.isFailureRecord,
      Effect.isLog]
  | succ m ih =>
    intro remaining i err hlt hf hs
    obtain ⟨r, rfl⟩ : ∃ r, remaining = r + 1 := ⟨remaining - 1, by omega⟩
    have hf0 : mount i ≠ none := by simpa using hf 0 (by omega)
    obtain ⟨e, he⟩ := Option.ne_none_iff_exists'.mp hf0
    have h := ih r (i + 1) (some e) (by omega)
      (fun j hj => by have := hf (j + 1) (by omega); rwa [show i + (j + 1) = i + 1 + j by omega] at this)
      (by rwa [show i + (m + 1) = i + 1 + m by omega] at hs)
    obtain ⟨h1, h2, h3, h4, h5, h6, h7⟩ := h
    refine ⟨?_, ?_, ?_, ?_, ?_, ?_, ?_⟩
    · simp only [mountLoop, he, countEffects_cons, h1]; simp [Effect.isMount]; omega
    · simp only [mountLoop, he, countEffects_cons, h2]; simp [Effect.isRunCommand]; omega
    · simp only [mountLoop, he, countEffects_cons, h3]; simp [Effect.isSleep]; omega
    · simp only [mountLoop, he, totalSleep, h4]; simp [mountRetryDelay]; omega
    · simp only [mountLoop, he, countEffects_cons, h5]; simp [Effect.isSuccessRecord]
    · simp only [mountLoop, he, countEffects_cons, h6]; simp [Effect.isFailureRecord]
    · simp only [mountLoop, he, countEffects_cons, h7]; simp [Effect.isLog]

theorem mountLoop_failure (mount : Nat → Option GoString) (fs : FS) (args : List GoString)
    (ctx : List (GoString × GoString)) :
    ∀ (remaining i : Nat) (err : Option GoString),
      (∀ j, j < remaining → mount (i + j) ≠ none) →
      countEffects Effect.isMount (mountLoop mount fs args ctx remaining i err) = remaining ∧
      countEffects Effect.isRunCommand (mountLoop mount fs args ctx remaining i err) = remaining ∧
      countEffects Effect.isSleep (mountLoop mount fs args ctx remaining i err) = remaining ∧
      totalSleep (mountLoop mount fs args ctx remaining i err) = mountRetryDelay * remaining ∧
      countEffects Effect.isSuccessRecord (mountLoop mount fs args ctx remaining i err) = 0 ∧
      countEffects Effect.isFailureRecord (mountLoop mount fs args ctx remaining i err) = 1 ∧
      countEffects Effect.isLog (mountLoop mount fs args ctx remaining i err) = 1 ∧
      (mountLoop mount fs args ctx remaining i err).getLast? =
        some ⟨fs, Effect.logInfo "Failed to mount hotplug".toList
          (ctx ++ [("err".toList,
            (if remaining = 0 then err else mount (i + remaining - 1)).getD "<nil>".toList)])⟩ := by
  intro remaining
  induction remaining with
  | zero =>
    intro i err _
    simp [mountLoop, countEffects_cons, countEffects_nil, totalSleep, Effect.isMount,
      Effect.isRunCommand, Effect.isSleep, Effect.isSuccessRecord, Effect.isFailureRecord,
      Effect.isLog]
  | succ r ih =>
    intro i err hf
    have hf0 : mount i ≠ none := by simpa using hf 0 (by omega)
    obtain ⟨e, he⟩ := Option.ne_none_iff_exists'.mp hf0
    have h := ih (i + 1) (some e)
      (fun j hj => by have := hf (j + 1) (by omega); rwa [show i + (j + 1) = i + 1 + j by omega] at this)
    obtain ⟨h1, h2, h3, h4, h5, h6, h7, h8⟩ := h
    have hlast : (if r = 0 then some e else mount (i + 1 + r - 1)) = mount (i + (r + 1) - 1) := by
      by_cases hr : r = 0
      · subst hr; simp [he]
      · simp only [hr, if_false]; congr 1; omega
    have hne : mountLoop mount fs args ctx r (i + 1) (some e) ≠ [] := by
      intro hnil; rw [hnil] at h8; simp at h8
    obtain ⟨x, l, hxl⟩ := List.exists_cons_of_ne_nil hne
    refine ⟨?_, ?_, ?_, ?_, ?_, ?_, ?_, ?_⟩
    · simp only [mountLoop, he, countEffects_cons, h1]; simp [Effect.isMount]; omega
    · simp only [mountLoop, he, countEffects_cons, h2]; simp [Effect.isRunCommand]; omega
    · simp only [mountLoop, he, countEffects_cons, h3]; simp [Effect.isSleep]; omega
    · simp only [mountLoop, he, totalSleep, h4]; simp [mountRetryDelay]; omega
    · simp only [mountLoop, he, countEffects_cons, h5]; simp [Effect.isSuccessRecord]
    · simp only [mountLoop, he, countEffects_cons, h6]; simp [Effect.isFailureRecord]
    · simp only [mountLoop, he, countEffects_cons, h7]; simp [Effect.isLog]
    · simp only [mountLoop, he]
      rw [hxl, List.getLast?_cons_cons, List.getLast?_cons_cons, ← hxl, h8, hlast]
      simp

theorem mountLoop_steps (mount : Nat → Option GoString) (fs : FS) (args : List GoString)
    (ctx : List (GoString × GoString)) :
    ∀ (remaining i : Nat) (err : Option GoString) (s : Step),
      s ∈ mountLoop mount fs args ctx remaining i err →
      s.fs = fs ∧ (∀ name a, s.eff = Effect.runCommand name a → name = "mount".toList ∧ a = args) ∧
        (∀ ms, s.eff = Effect.sleep ms → ms = mountRetryDelay) ∧
        (∀ p perm, s.eff ≠ Effect.mkdirAll p perm) := by
  intro remaining
  induction remaining with
  | zero =>
    intro i err s hs
    simp only [mountLoop, List.mem_singleton] at hs
    subst hs
    simp
  | succ r ih =>
    intro i err s hs
    cases hm : mount i with
    | none =>
      simp only [mountLoop, hm, List.mem_cons, List.mem_singleton, List.not_mem_nil,
        or_false] at hs
      rcases hs with rfl | rfl <;> simp
    | some e =>
      simp only [mountLoop, hm, List.mem_cons] at hs
      rcases hs with rfl | rfl | hs
      · simp
      · simp
      · exact ih (i + 1) (some e) s hs

theorem first_success_or_all_fail (mount : Nat → Option GoString) :
    ∀ n : Nat, (∀ j, j < n → mount j ≠ none) ∨
      ∃ m, m < n ∧ (∀ j, j < m → mount j ≠ none) ∧ mount m = none := by
  intro n
  induction n with
  | zero => left; intro j hj; omega
  | succ n ih =>
    rcases ih with h | ⟨m, hm, hf, hs⟩
    · cases hn : mount n with
      | none => exact Or.inr ⟨n, by omega, h, hn⟩
      | some e =>
        left
        intro j hj
        by_cases hjn : j = n
        · subst hjn; simp [hn]
        · exact h j (by omega)
    · exact Or.inr ⟨m, by omega, hf, hs⟩

theorem eventsProcess_not_qualifies (unmarshal : GoString → Option deviceEvent) (umask : Nat)
    (mount : Nat → Option GoString) (fs : FS) (event : Event)
    (h : ¬ ∃ e, Qualifies unmarshal event e) :
    eventsProcess unmarshal umask mount fs event = [] := by
  unfold eventsProcess
  by_cases h1 : event.type = "device".toList
  · rw [if_neg (by simpa using h1)]
    cases h2 : unmarshal event.Metadata with
    | none => rfl
    | some e =>
      simp only []
      by_cases h3 : e.Action = "added".toList
      · rw [if_neg (by simpa using h3)]
        by_cases h4 : mapGet e.Config "type".toList = "disk".toList
        · rw [if_neg (by simpa using h4)]
          by_cases h5 : mapGet e.Config "path".toList = []
          · rw [if_pos h5]
          · exact absurd ⟨e, h1, h2, h3, h4, h5⟩ h
        · rw [if_pos h4]
      · rw [if_pos h3]
  · rw [if_pos h1]

/-- C2: in a run for a qualifying device event, a first success at attempt `k`
(`1 ≤ k ≤ 5`) gives exactly `k` mount invocations, one success record and no
failure record; five failures give exactly five invocations, one failure record
carrying the error of the fifth attempt (it is the last step of the run) and no
success record; no run makes more than five invocations or logs more than one
record. -/
theorem eventsProcess_retry_outcomes (unmarshal : GoString → Option deviceEvent) (umask : Nat)
    (mount : Nat → Option GoString) (fs : FS) (event : Event) (e : deviceEvent)
    (h : Qualifies unmarshal event e) :
    (∀ k, 1 ≤ k → k ≤ 5 → FirstSuccessAt mount k →
      countEffects Effect.isMount (eventsProcess unmarshal umask mount fs event) = k ∧
      countEffects Effect.isSuccessRecord (eventsProcess unmarshal umask mount fs event) = 1 ∧
      countEffects Effect.isFailureRecord (eventsProcess unmarshal umask mount fs event) = 0) ∧
    ((∀ j, j < 5 → mount j ≠ none) →
      countEffects Effect.isMount (eventsProcess unmarshal umask mount fs event) = 5 ∧
      countEffects Effect.isFailureRecord (eventsProcess unmarshal umask mount fs event) = 1 ∧
      countEffects Effect.isSuccessRecord (eventsProcess unmarshal umask mount fs event) = 0 ∧
      ∃ err, mount 4 = some err ∧
        (eventsProcess unmarshal umask mount fs event).getLast? =
          some ⟨(osMkdirAll umask fs (mountTarget e) 0o755).1,
            Effect.logInfo "Failed to mount hotplug".toList
              [("type".toList, "virtiofs".toList), ("source".toList, mntSource e),
                ("path".toList, mapGet e.Config "path".toList), ("err".toList, err)]⟩) ∧
    countEffects Effect.isRunCommand (eventsProcess unmarshal umask mount fs event) ≤ 5 ∧
    countEffects Effect.isMount (eventsProcess unmarshal umask mount fs event) =
      countEffects Effect.isRunCommand (eventsProcess unmarshal umask mount fs event) ∧
    countEffects Effect.isLog (eventsProcess unmarshal umask mount fs event) ≤ 1 := by
  rw [eventsProcess_of_qualifies unmarshal umask mount fs event e h]
  simp only [countEffects_cons, mountAttempts]
  have hz : ∀ x : Nat, (if Effect.isMount (Effect.mkdirAll (mountTarget e) 0o755) = true
      then 1 else 0) + x = x := by intro x; simp [Effect.isMount]
  have hz2 : ∀ x : Nat, (if Effect.isSuccessRecord (Effect.mkdirAll (mountTarget e) 0o755) = true
      then 1 else 0) + x = x := by intro x; simp [Effect.isSuccessRecord]
  have hz3 : ∀ x : Nat, (if Effect.isFailureRecord (Effect.mkdirAll (mountTarget e) 0o755) = true
      then 1 else 0) + x = x := by intro x; simp [Effect.isFailureRecord]
  have hz4 : ∀ x : Nat, (if Effect.isRunCommand (Effect.mkdirAll (mountTarget e) 0o755) = true
      then 1 else 0) + x = x := by intro x; simp [Effect.isRunCommand]
  have hz5 : ∀ x : Nat, (if Effect.isLog (Effect.mkdirAll (mountTarget e) 0o755) = true
      then 1 else 0) + x = x := by intro x; simp [Effect.isLog]
  simp only [hz, hz2, hz3, hz4, hz5]
  refine ⟨?_, ?_, ?_⟩
  · intro k hk1 hk5 hk
    obtain ⟨hf, hs⟩ := hk
    have := mountLoop_success mount (osMkdirAll umask fs (mountTarget e) 0o755).1 (mountArgs e)
      [("type".toList, "virtiofs".toList), ("source".toList, mntSource e),
        ("path".toList, mapGet e.Config "path".toList)] (k - 1) 5 0 none (by omega)
      (fun j hj => by rw [Nat.zero_add]; exact hf j (by omega))
      (by rw [Nat.zero_add]; exact hs)
    obtain ⟨h1, _, _, _, h5, h6, _⟩ := this
    exact ⟨by rw [h1]; omega, h5, h6⟩
  · intro hall
    have := mountLoop_failure mount (osMkdirAll umask fs (mountTarget e) 0o755).1 (mountArgs e)
      [("type".toList, "virtiofs".toList), ("source".toList, mntSource e),
        ("path".toList, mapGet e.Config "path".toList)] 5 0 none
      (fun j hj => by rw [Nat.zero_add]; exact hall j hj)
    obtain ⟨h1, _, _, _, h5, h6, _, h8⟩ := this
    refine ⟨h1, h6, h5, ?_⟩
    obtain ⟨err, herr⟩ := Option.ne_none_iff_exists'.mp (hall 4 (by omega))
    refine ⟨err, herr, ?_⟩
    have hne : mountLoop mount (osMkdirAll umask fs (mountTarget e) 0o755).1 (mountArgs e)
        [("type".toList, "virtiofs".toList), ("source".toList, mntSource e),
          ("path".toList, mapGet e.Config "path".toList)] 5 0 none ≠ [] := by
      intro hnil; rw [hnil] at h8; simp at h8
    obtain ⟨x, l, hxl⟩ := List.exists_cons_of_ne_nil hne
    rw [hxl, List.getLast?_cons_cons, ← hxl, h8]
    simp [herr]
  · rcases first_success_or_all_fail mount 5 with hall | ⟨m, hm, hf, hs⟩
    · have := mountLoop_failure mount (osMkdirAll umask fs (mountTarget e) 0o755).1 (mountArgs e)
        [("type".toList, "virtiofs".toList), ("source".toList, mntSource e),
          ("path".toList, mapGet e.Config "path".toList)] 5 0 none
        (fun j hj => by rw [Nat.zero_add]; exact hall j hj)
      obtain ⟨h1, h2, _, _, _, _, h7, _⟩ := this
      rw [h1, h2, h7]; exact ⟨le_refl _, rfl, le_refl _⟩
    · have := mountLoop_success mount (osMkdirAll umask fs (mountTarget e) 0o755).1 (mountArgs e)
        [("type".toList, "virtiofs".toList), ("source".toList, mntSource e),
          ("path".toList, mapGet e.Config "path".toList)] m 5 0 none hm
        (fun j hj => by rw [Nat.zero_add]; exact hf j hj)
        (by rw [Nat.zero_add]; exact hs)
      obtain ⟨h1, h2, _, _, _, _, h7⟩ := this
      rw [h1, h2, h7]; exact ⟨by omega, rfl, le_refl _⟩

/-- C2, at a concrete input: four failures and then a success. -/
theorem eventsProcess_retry_outcomes_witness :
    Qualifies sampleUnmarshal sampleEvent sampleDeviceEvent ∧
      countEffects Effect.isMount
        (eventsProcess sampleUnmarshal 0o022 failsFourTimes rootOnly sampleEvent) = 5 ∧
      countEffects Effect.isSuccessRecord
        (eventsProcess sampleUnmarshal 0o022 failsFourTimes rootOnly sampleEvent) = 1 ∧
      countEffects Effect.isFailureRecord
        (eventsProcess sampleUnmarshal 0o022 failsFourTimes rootOnly sampleEvent) = 0 :=
  ⟨sample_qualifies,
    (eventsProcess_retry_outcomes sampleUnmarshal 0o022 failsFourTimes rootOnly sampleEvent
      sampleDeviceEvent sample_qualifies).1 5 (by decide) (by decide)
      ⟨fun j hj => by
          have hj4 : j < 4 := by omega
          simp [failsFourTimes, hj4], by decide⟩⟩

/-- C3, as stated, fails: when the mount utility always fails the run makes 5
invocations and 5 pauses, not 4, and pauses for 2500 ms, more than 2000 ms. -/
theorem eventsProcess_pauses_counterexample :
    countEffects Effect.isMount
        (eventsProcess sampleUnmarshal 0o022 alwaysFails rootOnly sampleEvent) = 5 ∧
      countEffects Effect.isSleep
        (eventsProcess sampleUnmarshal 0o022 alwaysFails rootOnly sampleEvent) = 5 ∧
      totalSleep (eventsProcess sampleUnmarshal 0o022 alwaysFails rootOnly sampleEvent) = 2500 ∧
      ¬ (countEffects Effect.isSleep
          (eventsProcess sampleUnmarshal 0o022 alwaysFails rootOnly sampleEvent) =
        countEffects Effect.isMount
          (eventsProcess sampleUnmarshal 0o022 alwaysFails rootOnly sampleEvent) - 1) ∧
      ¬ (totalSleep (eventsProcess sampleUnmarshal 0o022 alwaysFails rootOnly sampleEvent)
        ≤ 2000) := by
  decide

/-- C3, amended: in a run for a qualifying device event every pause lasts 500 ms
and one pause follows every failed mount attempt, the last one included: a
first success at attempt `k` (`1 ≤ k ≤ 5`) gives `k` invocations and `k - 1`
pauses, five failures give 5 invocations and 5 pauses, and the run pauses for
at most 2500 ms in all. -/
theorem eventsProcess_pauses (unmarshal : GoString → Option deviceEvent) (umask : Nat)
    (mount : Nat → Option GoString) (fs : FS) (event : Event) (e : deviceEvent)
    (h : Qualifies unmarshal event e) :
    (∀ s ms, s ∈ eventsProcess unmarshal umask mount fs event → s.eff = Effect.sleep ms →
      ms = 500) ∧
    (∀ k, 1 ≤ k → k ≤ 5 → FirstSuccessAt mount k →
      countEffects Effect.isMount (eventsProcess unmarshal umask mount fs event) = k ∧
      countEffects Effect.isSleep (eventsProcess unmarshal umask mount fs event) = k - 1 ∧
      totalSleep (eventsProcess unmarshal umask mount fs event) = 500 * (k - 1)) ∧
    ((∀ j, j < 5 → mount j ≠ none) →
      countEffects Effect.isMount (eventsProcess unmarshal umask mount fs event) = 5 ∧
      countEffects Effect.isSleep (eventsProcess unmarshal umask mount fs event) = 5 ∧
      totalSleep (eventsProcess unmarshal umask mount fs event) = 2500) ∧
    totalSleep (eventsProcess unmarshal umask mount fs event) ≤ 2500 := by
  rw [eventsProcess_of_qualifies unmarshal umask mount fs event e h]
  have hS := mountLoop_success mount (osMkdirAll umask fs (mountTarget e) 0o755).1 (mountArgs e)
      [("type".toList, "virtiofs".toList), ("source".toList, mntSource e),
        ("path".toList, mapGet e.Config "path".toList)]
  have hF := mountLoop_failure mount (osMkdirAll umask fs (mountTarget e) 0o755).1 (mountArgs e)
      [("type".toList, "virtiofs".toList), ("source".toList, mntSource e),
        ("path".toList, mapGet e.Config "path".toList)] 5 0 none
  simp only [countEffects_cons, mountAttempts, totalSleep]
  have hz : ∀ x : Nat, (if Effect.isMount (Effect.mkdirAll (mountTarget e) 0o755) = true
      then 1 else 0) + x = x := by intro x; simp [Effect.isMount]
  have hz2 : ∀ x : Nat, (if Effect.isSleep (Effect.mkdirAll (mountTarget e) 0o755) = true
      then 1 else 0) + x = x := by intro x; simp [Effect.isSleep]
  simp only [hz, hz2]
  refine ⟨?_, ?_, ?_, ?_⟩
  · intro s ms hs heq
    rcases List.mem_cons.mp hs with rfl | hs
    · simp at heq
    · exact ((mountLoop_steps mount _ _ _ 5 0 none s hs).2.2.1 ms heq)
  · intro k hk1 hk5 hk
    obtain ⟨hf, hs⟩ := hk
    obtain ⟨h1, _, h3, h4, _⟩ := hS (k - 1) 5 0 none (by omega)
      (fun j hj => by rw [Nat.zero_add]; exact hf j (by omega))
      (by rw [Nat.zero_add]; exact hs)
    exact ⟨by rw [h1]; omega, h3, h4⟩
  · intro hall
    obtain ⟨h1, _, h3, h4, _⟩ := hF (fun j hj => by rw [Nat.zero_add]; exact hall j hj)
    exact ⟨h1, h3, h4⟩
  · rcases first_success_or_all_fail mount 5 with hall | ⟨m, hm, hf, hs⟩
    · obtain ⟨_, _, _, h4, _⟩ := hF (fun j hj => by rw [Nat.zero_add]; exact hall j hj)
      rw [h4]; decide
    · obtain ⟨_, _, _, h4, _⟩ := hS m 5 0 none hm
        (fun j hj => by rw [Nat.zero_add]; exact hf j hj) (by rw [Nat.zero_add]; exact hs)
      rw [h4]; simp only [mountRetryDelay]; omega

/-- C3 amended, at a concrete input: the utility that always fails. -/
theorem eventsProcess_pauses_witness :
    Qualifies sampleUnmarshal sampleEvent sampleDeviceEvent ∧
      totalSleep (eventsProcess sampleUnmarshal 0o022 alwaysFails rootOnly sampleEvent) ≤ 2500 :=
  ⟨sample_qualifies,
    (eventsProcess_pauses sampleUnmarshal 0o022 alwaysFails rootOnly sampleEvent
      sampleDeviceEvent sample_qualifies).2.2.2⟩

theorem eventsProcess_qualifies_counts (unmarshal : GoString → Option deviceEvent)
    (umask : Nat) (mount : Nat → Option GoString) (fs : FS) (event : Event) (e : deviceEvent)
    (he : Qualifies unmarshal event e) :
    countEffects Effect.isMkdirAll (eventsProcess unmarshal umask mount fs event) = 1 ∧
      1 ≤ countEffects Effect.isMount (eventsProcess unmarshal umask mount fs event) := by
  rw [eventsProcess_of_qualifies unmarshal umask mount fs event e he]
  simp only [countEffects_cons, mountAttempts]
  have hmk : ∀ l : List Step, (∀ s, s ∈ l → ∀ p perm, s.eff ≠ Effect.mkdirAll p perm) →
      countEffects Effect.isMkdirAll l = 0 := by
    intro l
    induction l with
    | nil => intro _; rfl
    | cons a t ih =>
      intro hl
      rw [countEffects_cons, ih (fun s hs => hl s (List.mem_cons_of_mem _ hs))]
      have := hl a (List.mem_cons_self _ _)
      cases ha : a.eff <;> simp_all [Effect.isMkdirAll]
  rw [hmk _ (fun s hs => (mountLoop_steps mount _ _ _ 5 0 none s hs).2.2.2)]
  refine ⟨by simp [Effect.isMkdirAll], ?_⟩
  rcases first_success_or_all_fail mount 5 with hall | ⟨m, hm, hf, hs⟩
  · have := (mountLoop_failure mount (osMkdirAll umask fs (mountTarget e) 0o755).1 (mountArgs e)
      [("type".toList, "virtiofs".toList), ("source".toList, mntSource e),
        ("path".toList, mapGet e.Config "path".toList)] 5 0 none
      (fun j hj => by rw [Nat.zero_add]; exact hall j hj)).1
    omega
  · have := (mountLoop_success mount (osMkdirAll umask fs (mountTarget e) 0o755).1 (mountArgs e)
      [("type".toList, "virtiofs".toList), ("source".toList, mntSource e),
        ("path".toList, mapGet e.Config "path".toList)] m 5 0 none hm
      (fun j hj => by rw [Nat.zero_add]; exact hf j hj)
      (by rw [Nat.zero_add]; exact hs)).1
    omega

/-- C5: `eventsProcess` creates a directory or invokes a subprocess if and only
if the event has type `device`, its metadata decodes, the action is `added`,
`config["type"]` is `disk` and `config["path"]` is not empty; when a condition
is missing, and so when the type is not `device`, the run is empty: no effect
and no log record. -/
theorem eventsProcess_effects_iff (unmarshal : GoString → Option deviceEvent) (umask : Nat)
    (mount : Nat → Option GoString) (fs : FS) (event : Event) :
    ((∃ s, s ∈ eventsProcess unmarshal umask mount fs event ∧
        (s.eff.isMkdirAll = true ∨ s.eff.isRunCommand = true)) ↔
      (event.type = "device".toList ∧ ∃ e, unmarshal event.Metadata = some e ∧
        e.Action = "added".toList ∧ mapGet e.Config "type".toList = "disk".toList ∧
        mapGet e.Config "path".toList ≠ [])) ∧
    (¬ (event.type = "device".toList ∧ ∃ e, unmarshal event.Metadata = some e ∧
        e.Action = "added".toList ∧ mapGet e.Config "type".toList = "disk".toList ∧
        mapGet e.Config "path".toList ≠ []) →
      eventsProcess unmarshal umask mount fs event = []) ∧
    (event.type ≠ "device".toList → eventsProcess unmarshal umask mount fs event = []) ∧
    ((event.type = "device".toList ∧ ∃ e, unmarshal event.Metadata = some e ∧
        e.Action = "added".toList ∧ mapGet e.Config "type".toList = "disk".toList ∧
        mapGet e.Config "path".toList ≠ []) →
      countEffects Effect.isMkdirAll (eventsProcess unmarshal umask mount fs event) = 1 ∧
      1 ≤ countEffects Effect.isMount (eventsProcess unmarshal umask mount fs event)) := by
  have hq : (event.type = "device".toList ∧ ∃ e, unmarshal event.Metadata = some e ∧
        e.Action = "added".toList ∧ mapGet e.Config "type".toList = "disk".toList ∧
        mapGet e.Config "path".toList ≠ []) ↔ ∃ e, Qualifies unmarshal event e := by
    constructor
    · rintro ⟨h1, e, h2, h3, h4, h5⟩; exact ⟨e, h1, h2, h3, h4, h5⟩
    · rintro ⟨e, h1, h2, h3, h4, h5⟩; exact ⟨h1, e, h2, h3, h4, h5⟩
  rw [hq]
  have hempty : (¬ ∃ e, Qualifies unmarshal event e) →
      eventsProcess unmarshal umask mount fs event = [] :=
    eventsProcess_not_qualifies unmarshal umask mount fs event
  refine ⟨⟨?_, ?_⟩, hempty, ?_, ?_⟩
  · rintro ⟨s, hs, _⟩
    by_contra hn
    rw [hempty hn] at hs
    simp at hs
  · rintro ⟨e, he⟩
    rw [eventsProcess_of_qualifies unmarshal umask mount fs event e he]
    exact ⟨_, List.mem_cons_self _ _, Or.inl rfl⟩
  · intro hne
    apply hempty
    rintro ⟨e, h1, _⟩
    exact hne h1
  · rintro ⟨e, he⟩
    exact eventsProcess_qualifies_counts unmarshal umask mount fs event e he

/-- C6: in a run for a qualifying device event every subprocess invocation runs
`mount` with the same argument list: `-o` and the options joined with commas
when there are options, nothing when there are none, then `-t`, `virtiofs`,
the source and the target; the source is `mount.Source` when that is not empty
and `lxd_` followed by the device name otherwise, so `lxd_disk0` for the name
`disk0`. -/
theorem eventsProcess_mount_args (unmarshal : GoString → Option deviceEvent) (umask : Nat)
    (mount : Nat → Option GoString) (fs : FS) (event : Event) (e : deviceEvent)
    (h : Qualifies unmarshal event e) :
    (∀ s name args, s ∈ eventsProcess unmarshal umask mount fs event →
      s.eff = Effect.runCommand name args →
      name = "mount".toList ∧
      args = (if e.Mount.Options = [] then []
          else ["-o".toList, stringsJoin e.Mount.Options ",".toList]) ++
        ["-t".toList, "virtiofs".toList,
          (if e.Mount.Source = [] then "lxd_".toList ++ e.Name else e.Mount.Source),
          mountTarget e]) ∧
    (e.Mount.Source = [] → e.Name = "disk0".toList → mntSource e = "lxd_disk0".toList) ∧
    (∃ s, s ∈ eventsProcess unmarshal umask mount fs event ∧
      s.eff = Effect.mkdirAll (mountTarget e) 0o755) := by
  rw [eventsProcess_of_qualifies unmarshal umask mount fs event e h]
  refine ⟨?_, ?_, ⟨_, List.mem_cons_self _ _, rfl⟩⟩
  · intro s name args hs heq
    rcases List.mem_cons.mp hs with rfl | hs
    · simp at heq
    · obtain ⟨hn, ha⟩ := (mountLoop_steps mount _ _ _ _ 0 none s hs).2.1 name args heq
      refine ⟨hn, ?_⟩
      rw [ha]
      unfold mountArgs mntSource
      by_cases ho : e.Mount.Options = [] <;> by_cases hsrc : e.Mount.Source = [] <;>
        simp [ho, hsrc, List.length_pos]
  · intro hsrc hname
    simp [mntSource, hsrc, hname]

/-- C6, at a concrete input: the device `disk0` without `mount.Source`. -/
theorem eventsProcess_mount_args_witness :
    Qualifies sampleUnmarshal sampleEvent sampleDeviceEvent ∧
      mntSource sampleDeviceEvent = "lxd_disk0".toList :=
  ⟨sample_qualifies,
    (eventsProcess_mount_args sampleUnmarshal 0o022 alwaysFails rootOnly sampleEvent
      sampleDeviceEvent sample_qualifies).2.1 rfl rfl⟩

theorem mapGet_mapSet (m : StringMap) (key v : GoString) : mapGet (mapSet m key v) key = v := by
  induction m with
  | nil => simp [mapSet, mapGet]
  | cons a t ih =>
    obtain ⟨k, w⟩ := a
    by_cases hk : k = key
    · simp [mapSet, mapGet, hk]
    · simp [mapSet, mapGet, hk, ih]

theorem cleanBacktrack_rooted :
    ∀ (o : List Char) (last : Char), (∃ l, o = l ++ ['/']) →
      ∃ l, cleanBacktrack 1 o last = l ++ ['/'] := by
  intro o
  induction o with
  | nil => intro last h; obtain ⟨l, hl⟩ := h; simp at hl
  | cons c t ih =>
    intro last h
    unfold cleanBacktrack
    split
    · rename_i hcond
      apply ih
      obtain ⟨l, hl⟩ := h
      have hlen : 1 < (c :: t).length := by
        simp only [Bool.and_eq_true, decide_eq_true_eq] at hcond
        exact hcond.1
      cases l with
      | nil =>
        simp only [List.nil_append, List.cons.injEq] at hl
        obtain ⟨_, ht⟩ := hl
        subst ht
        simp at hlen
      | cons a l2 =>
        simp only [List.cons_append, List.cons.injEq] at hl
        exact ⟨l2, hl.2⟩
    · exact h

theorem cleanLoop_rooted :
    ∀ (fuel : Nat) (rest out : List Char), (∃ l, out = l ++ ['/']) →
      ∃ l, cleanLoop true fuel rest out 1 = l ++ ['/'] := by
  intro fuel
  induction fuel with
  | zero => intro rest out h; simpa [cleanLoop] using h
  | succ n ih =>
    intro rest out h
    cases rest with
    | nil => simpa [cleanLoop] using h
    | cons c t =>
      simp only [cleanLoop]
      split
      · exact ih _ _ h
      · split
        · exact ih _ _ h
        · split
          · split
            · cases out with
              | nil => exact ih _ _ h
              | cons l o =>
                simp only []
                apply ih
                apply cleanBacktrack_rooted
                rename_i hlen
                obtain ⟨l0, hl0⟩ := h
                cases l0 with
                | nil =>
                  simp only [List.nil_append, List.cons.injEq] at hl0
                  obtain ⟨_, ho⟩ := hl0
                  subst ho
                  simp at hlen
                | cons a l2 =>
                  simp only [List.cons_append, List.cons.injEq] at hl0
                  exact ⟨l2, hl0.2⟩
            · split
              · rename_i hr; simp at hr
              · exact ih _ _ h
          · apply ih
            obtain ⟨l0, hl0⟩ := h
            split
            · exact ⟨(List.takeWhile (fun x => !isPathSeparator x) (c :: t)).reverse ++ '/' :: l0,
                by rw [hl0]; simp⟩
            · exact ⟨(List.takeWhile (fun x => !isPathSeparator x) (c :: t)).reverse ++ l0,
                by rw [hl0]; simp⟩

theorem filepathClean_rooted (t : List Char) :
    filepathIsAbs (filepathClean ('/' :: t)) = true := by
  obtain ⟨l, hl⟩ := cleanLoop_rooted t.length t ['/'] ⟨[], rfl⟩
  have hsep : isPathSeparator '/' = true := by decide
  simp only [filepathClean, hsep, if_true, hl]
  simp [filepathIsAbs, hsep]

theorem filepathJoin_root (p : GoString) :
    filepathJoin ["/".toList, p] = filepathClean ('/' :: '/' :: p) := by
  have h : "/".toList = ['/'] := rfl
  simp [filepathJoin, stringsJoin, h]

/-- C4: for a qualifying device event with path `p`, the directory creation and
the last argument of every mount invocation use one target: `p` itself when `p`
is absolute, and otherwise `filepath.Join("/", p)`, the path `p` taken relative
to the root; the target always begins with `/`, is computed from the event
alone, and is `/data` for `p = "data"`. -/
theorem eventsProcess_mount_target (unmarshal : GoString → Option deviceEvent) (umask : Nat)
    (mount : Nat → Option GoString) (fs : FS) (event : Event) (e : deviceEvent)
    (h : Qualifies unmarshal event e) :
    (∀ s path perm, s ∈ eventsProcess unmarshal umask mount fs event →
      s.eff = Effect.mkdirAll path perm → path = mountTarget e) ∧
    (∀ s name args, s ∈ eventsProcess unmarshal umask mount fs event →
      s.eff = Effect.runCommand name args → args.getLast? = some (mountTarget e)) ∧
    (filepathIsAbs (mapGet e.Config "path".toList) = true →
      mountTarget e = mapGet e.Config "path".toList) ∧
    (filepathIsAbs (mapGet e.Config "path".toList) = false →
      mountTarget e = filepathJoin ["/".toList, mapGet e.Config "path".toList] ∧
      mountTarget e = filepathClean ("//".toList ++ mapGet e.Config "path".toList)) ∧
    (∃ rest, mountTarget e = '/' :: rest) ∧
    (mapGet e.Config "path".toList = "data".toList → mountTarget e = "/data".toList) := by
  have habs : filepathIsAbs (mapGet e.Config "path".toList) = true →
      mountTarget e = mapGet e.Config "path".toList := by
    intro ha
    simp only [mountTarget, normalizedConfig, ha, Bool.not_true, Bool.false_eq_true, if_false]
  have hrel : filepathIsAbs (mapGet e.Config "path".toList) = false →
      mountTarget e = filepathJoin ["/".toList, mapGet e.Config "path".toList] := by
    intro ha
    simp only [mountTarget, normalizedConfig, ha, Bool.not_false, if_true]
    exact mapGet_mapSet _ _ _
  have hslash : ∀ q : GoString, filepathIsAbs q = true → ∃ rest, q = '/' :: rest := by
    intro q hq
    cases q with
    | nil => simp [filepathIsAbs] at hq
    | cons c r =>
      simp only [filepathIsAbs, isPathSeparator, decide_eq_true_eq] at hq
      exact ⟨r, by rw [hq]⟩
  rw [eventsProcess_of_qualifies unmarshal umask mount fs event e h]
  refine ⟨?_, ?_, habs, ?_, ?_, ?_⟩
  · intro s path perm hs heq
    rcases List.mem_cons.mp hs with rfl | hs
    · simp only [Effect.mkdirAll.injEq] at heq
      exact heq.1.symm
    · exact absurd heq ((mountLoop_steps mount _ _ _ _ 0 none s hs).2.2.2 path perm)
  · intro s name args hs heq
    rcases List.mem_cons.mp hs with rfl | hs
    · simp at heq
    · obtain ⟨_, ha⟩ := (mountLoop_steps mount _ _ _ _ 0 none s hs).2.1 name args heq
      rw [ha]
      simp [mountArgs]
  · intro ha
    refine ⟨hrel ha, ?_⟩
    rw [hrel ha, filepathJoin_root]
    rfl
  · cases ha : filepathIsAbs (mapGet e.Config "path".toList) with
    | true => rw [habs ha]; exact hslash _ ha
    | false =>
      rw [hrel ha, filepathJoin_root]
      exact hslash _ (filepathClean_rooted _)
  · intro hp
    have ha : filepathIsAbs (mapGet e.Config "path".toList) = false := by rw [hp]; decide
    rw [hrel ha, hp]
    decide

/-- C4, at a concrete input: the relative path `data`. -/
theorem eventsProcess_mount_target_witness :
    Qualifies sampleUnmarshal sampleEvent sampleDeviceEvent ∧
      mountTarget sampleDeviceEvent = "/data".toList :=
  ⟨sample_qualifies,
    (eventsProcess_mount_target sampleUnmarshal 0o022 alwaysFails rootOnly sampleEvent
      sampleDeviceEvent sample_qualifies).2.2.2.2.2 (by decide)⟩

theorem stringsSplit_ne_nil (s : GoString) (sep : Char) : stringsSplit s sep ≠ [] := by
  cases s with
  | nil => simp [stringsSplit]
  | cons c t =>
    unfold stringsSplit
    split
    · simp
    · split <;> simp

theorem stringsJoin_cons_cons (c : Char) (h : GoString) (r : List GoString) (sep : GoString) :
    stringsJoin ((c :: h) :: r) sep = c :: stringsJoin (h :: r) sep := by
  cases r <;> simp [stringsJoin]

theorem stringsJoin_stringsSplit (s : GoString) (sep : Char) :
    stringsJoin (stringsSplit s sep) [sep] = s := by
  induction s with
  | nil => simp [stringsSplit, stringsJoin]
  | cons c t ih =>
    unfold stringsSplit
    split
    · rename_i hc
      obtain ⟨h, r, hr⟩ := List.exists_cons_of_ne_nil (stringsSplit_ne_nil t sep)
      rw [hr] at ih ⊢
      simp [stringsJoin, ih, hc]
    · obtain ⟨h, r, hr⟩ := List.exists_cons_of_ne_nil (stringsSplit_ne_nil t sep)
      rw [hr] at ih ⊢
      simp only []
      rw [stringsJoin_cons_cons, ih]

theorem stringsSplit_no_sep (s : GoString) (sep : Char) :
    ∀ t, t ∈ stringsSplit s sep → sep ∉ t := by
  induction s with
  | nil => intro t ht; simp [stringsSplit] at ht; simp [ht]
  | cons c r ih =>
    intro t ht
    unfold stringsSplit at ht
    split at ht
    · rcases List.mem_cons.mp ht with rfl | ht
      · simp
      · exact ih t ht
    · rename_i hc
      obtain ⟨h, l, hl⟩ := List.exists_cons_of_ne_nil (stringsSplit_ne_nil r sep)
      rw [hl] at ht ih
      simp only [] at ht
      rcases List.mem_cons.mp ht with rfl | ht
      · have := ih h (List.mem_cons_self _ _)
        simp only [List.mem_cons, not_or]
        exact ⟨fun hsc => hc hsc.symm, this⟩
      · exact ih t (List.mem_cons_of_mem _ ht)

theorem stringsSplit_length (s : GoString) (sep : Char) :
    (stringsSplit s sep).length = s.count sep + 1 := by
  induction s with
  | nil => simp [stringsSplit]
  | cons c r ih =>
    unfold stringsSplit
    split
    · rename_i hc
      simp [ih, hc]
    · rename_i hc
      obtain ⟨h, l, hl⟩ := List.exists_cons_of_ne_nil (stringsSplit_ne_nil r sep)
      rw [hl] at ih ⊢
      simp only [List.length_cons] at ih ⊢
      rw [ih, List.count_cons_of_ne (fun hsc => hc hsc.symm)]

theorem registeredTypes_eventsSocket (env : SocketEnv) (r : SocketRequest) :
    registeredTypes (eventsSocket env r).2 = [] ∨
      registeredTypes (eventsSocket env r).2 = [stringsSplit (typeStrOf r) ','] := by
  unfold eventsSocket
  split
  · cases hu : env.upgrade with
    | error err => left; simp [registeredTypes]
    | ok conn =>
      right
      simp only [socketListen]
      cases env.addListener (ListenerConnection.websocket conn) (stringsSplit (typeStrOf r) ',') <;>
        simp [registeredTypes]
  · cases hh : env.hijacker with
    | none => left; simp [registeredTypes]
    | some res =>
      cases res with
      | error err => left; simp [registeredTypes]
      | ok conn =>
        simp only []
        cases hn : env.newStreamListenerConnection conn with
        | some err => left; simp [registeredTypes]
        | none =>
          right
          simp only [socketListen]
          cases env.addListener (ListenerConnection.stream conn)
            (stringsSplit (typeStrOf r) ',') <;> simp [registeredTypes]

/-- C1, as stated, fails: for `type=logging,` the list passed to `AddListener`
is `["logging", ""]`; it holds the empty token, which is not among the
non-empty comma-separated tokens of the value. -/
theorem eventsSocket_types_counterexample :
    registeredTypes (eventsSocket allSucceed
        { formType := "logging,".toList, headerUpgrade := "websocket".toList }).2 =
      [["logging".toList, []]] ∧
    nonEmptyTokens "logging,".toList = ["logging".toList] ∧
    ¬ (∀ t, t ∈ ["logging".toList, ([] : GoString)] ↔ t ∈ nonEmptyTokens "logging,".toList) := by
  refine ⟨by decide, by decide, ?_⟩
  intro h
  have h1 := (h []).mp (by simp)
  revert h1
  decide

/-- C1, amended: every list of event types that `eventsSocket` passes to
`AddListener` is the list of all comma-separated tokens of the `type` value,
empty tokens included and in order (joining it with commas gives the value
back, no token holds a comma, there is one token more than commas); as a set it
equals the non-empty tokens exactly when no token is empty; and when the value
is empty it is the fixed default list logging, operation, lifecycle, config,
device. -/
theorem eventsSocket_types (env : SocketEnv) (r : SocketRequest) :
    (∀ types, types ∈ registeredTypes (eventsSocket env r).2 →
      (r.formType = [] → types = defaultTypes) ∧
      (r.formType ≠ [] →
        types = stringsSplit r.formType ',' ∧
        stringsJoin types ",".toList = r.formType ∧
        (∀ t, t ∈ types → ',' ∉ t) ∧
        types.length = r.formType.count ',' + 1 ∧
        ((∀ t, t ∈ types ↔ t ∈ nonEmptyTokens r.formType) ↔ [] ∉ types))) ∧
    (registeredTypes (eventsSocket env r).2).length ≤ 1 := by
  have hdef : stringsSplit defaultTypeStr ',' = defaultTypes := by decide
  refine ⟨?_, ?_⟩
  · intro types ht
    have hty : types = stringsSplit (typeStrOf r) ',' := by
      rcases registeredTypes_eventsSocket env r with h | h
      · rw [h] at ht; simp at ht
      · rw [h] at ht; simpa using ht
    refine ⟨?_, ?_⟩
    · intro he
      rw [hty, typeStrOf, if_pos he, hdef]
    · intro hne
      have hty2 : types = stringsSplit r.formType ',' := by rw [hty, typeStrOf, if_neg hne]
      refine ⟨hty2, ?_, ?_, ?_, ?_⟩
      · rw [hty2]; exact stringsJoin_stringsSplit r.formType ','
      · rw [hty2]; exact stringsSplit_no_sep r.formType ','
      · rw [hty2]; exact stringsSplit_length r.formType ','
      · rw [hty2]
        constructor
        · intro hall hmem
          have := (hall []).mp hmem
          simp [nonEmptyTokens] at this
        · intro hno t
          simp only [nonEmptyTokens, List.mem_filter, Bool.not_eq_true', List.isEmpty_eq_false]
          constructor
          · intro hmem
            refine ⟨hmem, ?_⟩
            intro hnil
            apply hno
            simpa [hnil] using hmem
          · exact fun h => h.1
  · rcases registeredTypes_eventsSocket env r with h | h <;> rw [h] <;> simp

/-- C9, as stated, fails: a request without the upgrade signal on a response
writer that supports hijacking but whose `Hijack` fails ends with that error,
and no listener connection is registered. -/
theorem eventsSocket_transport_counterexample :
    hijackFails.hijacker ≠ none ∧
    eventsSocket hijackFails { formType := [], headerUpgrade := [] } =
      (some "hijack failed".toList, [SocketCall.hijack]) ∧
    registeredConnections
      (eventsSocket hijackFails { formType := [], headerUpgrade := [] }).2 = [] := by
  refine ⟨by simp [hijackFails], by decide, by decide⟩

/-- C9, amended: `eventsSocket` tries at most one transport.  When the request
signals a socket upgrade it calls the websocket upgrade, never `Hijack`, and on
success registers a websocket listener connection; on failure it returns the
error with nothing registered.  Otherwise, when the response writer supports
hijacking, it calls `Hijack`, never the upgrade, and registers a framed stream
listener connection when `Hijack` and the stream wrapper both succeed; when
either fails it returns that error with nothing registered.  When the response
writer does not support hijacking it returns the capability error and makes no
call at all. -/
theorem eventsSocket_transport (env : SocketEnv) (r : SocketRequest) :
    transportAttempts (eventsSocket env r).2 ≤ 1 ∧
    (r.headerUpgrade = "websocket".toList →
      SocketCall.hijack ∉ (eventsSocket env r).2 ∧
      (eventsSocket env r).2.head? = some SocketCall.upgrade ∧
      (∀ conn, env.upgrade = .ok conn →
        registeredConnections (eventsSocket env r).2 = [ListenerConnection.websocket conn]) ∧
      (∀ err, env.upgrade = .error err →
        eventsSocket env r = (some err, [SocketCall.upgrade]))) ∧
    (r.headerUpgrade ≠ "websocket".toList →
      SocketCall.upgrade ∉ (eventsSocket env r).2 ∧
      (∀ conn, env.hijacker = some (.ok conn) → env.newStreamListenerConnection conn = none →
        (eventsSocket env r).2.head? = some SocketCall.hijack ∧
        registeredConnections (eventsSocket env r).2 = [ListenerConnection.stream conn]) ∧
      (∀ err, env.hijacker = some (.error err) →
        eventsSocket env r = (some err, [SocketCall.hijack])) ∧
      (∀ conn err, env.hijacker = some (.ok conn) →
        env.newStreamListenerConnection conn = some err →
        (eventsSocket env r).1 = some err ∧
        registeredConnections (eventsSocket env r).2 = []) ∧
      (env.hijacker = none →
        eventsSocket env r = (some "Missing implemented http.Hijacker interface".toList, []))) := by
  refine ⟨?_, ?_, ?_⟩
  · unfold eventsSocket
    split
    · cases env.upgrade with
      | error err => simp [transportAttempts]
      | ok conn =>
        simp only [socketListen]
        cases env.addListener (ListenerConnection.websocket conn)
          (stringsSplit (typeStrOf r) ',') <;> simp [transportAttempts]
    · cases env.hijacker with
      | none => simp [transportAttempts]
      | some res =>
        cases res with
        | error err => simp [transportAttempts]
        | ok conn =>
          simp only []
          cases env.newStreamListenerConnection conn with
          | some err => simp [transportAttempts]
          | none =>
            simp only [socketListen]
            cases env.addListener (ListenerConnection.stream conn)
              (stringsSplit (typeStrOf r) ',') <;> simp [transportAttempts]
  · intro hu
    unfold eventsSocket
    rw [if_pos hu]
    cases env.upgrade with
    | error err => simp
    | ok conn =>
      simp only [socketListen]
      cases env.addListener (ListenerConnection.websocket conn)
        (stringsSplit (typeStrOf r) ',') <;> simp [registeredConnections]
  · intro hu
    unfold eventsSocket
    rw [if_neg hu]
    cases env.hijacker with
    | none => simp
    | some res =>
      cases res with
      | error err => simp
      | ok conn =>
        simp only []
        cases hn : env.newStreamListenerConnection conn with
        | some err =>
          simp [registeredConnections, hn]
          intro c e hc he
          subst hc
          rw [hn] at he
          exact Option.some.inj he
        | none =>
          simp only [socketListen]
          cases env.addListener (ListenerConnection.stream conn)
            (stringsSplit (typeStrOf r) ',') <;> simp [registeredConnections, hn] <;>
          · intro c e hc he
            subst hc
            rw [hn] at he
            exact Option.noConfusion he

/-- C7: `eventsPost` answers with an internal error exactly when decoding the
body fails or `Send` fails, and with success otherwise; when decoding fails it
calls nothing; it dispatches `eventsProcess` exactly when it answers with
success, and then it has called `Send` once, before the dispatch, with the empty
project and the decoded type and metadata; the response is the same whatever
the reaction does. -/
theorem eventsPost_response (decode : GoString → Except GoString Event)
    (send : GoString → GoString → GoString → Option GoString) (body : GoString) :
    ((∃ err, (eventsPost decode send body).1 = Response.internalError err) ↔
      ((∃ err, decode body = .error err) ∨
        ∃ ev, decode body = .ok ev ∧ send [] ev.type ev.Metadata ≠ none)) ∧
    ((eventsPost decode send body).1 = Response.syncResponse true ↔
      ∃ ev, decode body = .ok ev ∧ send [] ev.type ev.Metadata = none) ∧
    ((∃ err, (eventsPost decode send body).1 = Response.internalError err) ∨
      (eventsPost decode send body).1 = Response.syncResponse true) ∧
    ((∃ err, decode body = .error err) → (eventsPost decode send body).2 = []) ∧
    ((∃ ev, PostCall.goEventsProcess ev ∈ (eventsPost decode send body).2) ↔
      (eventsPost decode send body).1 = Response.syncResponse true) ∧
    ((eventsPost decode send body).1 = Response.syncResponse true →
      ∃ ev, decode body = .ok ev ∧
        (eventsPost decode send body).2 =
          [PostCall.send [] ev.type ev.Metadata, PostCall.goEventsProcess ev]) ∧
    (∀ (unmarshal : GoString → Option deviceEvent) (umask : Nat)
        (mount : Nat → Option GoString) (fs : FS),
      (eventsPostAndReact decode send unmarshal umask mount fs body).1 =
        (eventsPost decode send body).1) := by
  unfold eventsPostAndReact eventsPost
  cases hd : decode body with
  | error err => simp
  | ok ev =>
    cases hs : send [] ev.type ev.Metadata with
    | some err => simp [hs]
    | none => simp [hs]

theorem length_dropWhile_le (p : Char → Bool) (l : List Char) :
    (l.dropWhile p).length ≤ l.length :=
  (List.dropWhile_suffix p).length_le

/-- The fuel of `cleanLoop` never runs out: any two amounts of fuel that cover
the rest of the input give the same result. -/
theorem cleanLoop_fuel (rooted : Bool) :
    ∀ (fuel fuel2 : Nat) (rest out : List Char) (dotdot : Nat),
      rest.length ≤ fuel → rest.length ≤ fuel2 →
      cleanLoop rooted fuel rest out dotdot = cleanLoop rooted fuel2 rest out dotdot := by
  intro fuel
  induction fuel with
  | zero =>
    intro fuel2 rest out dotdot h1 _
    have hr : rest = [] := List.length_eq_zero.mp (by omega)
    subst hr
    cases fuel2 <;> simp [cleanLoop]
  | succ n ih =>
    intro fuel2 rest out dotdot h1 h2
    cases rest with
    | nil => cases fuel2 <;> simp [cleanLoop]
    | cons c t =>
      cases fuel2 with
      | zero => simp at h2
      | succ n2 =>
        have ht1 : t.length ≤ n := by simpa using h1
        have ht2 : t.length ≤ n2 := by simpa using h2
        have hd : ∀ n0, t.length ≤ n0 → (t.drop 1).length ≤ n0 := by
          intro n0 h0; simp only [List.length_drop]; omega
        simp only [cleanLoop]
        split
        · exact ih n2 t out dotdot ht1 ht2
        · rename_i hsep
          have hw : ((c :: t).dropWhile (fun x => !isPathSeparator x)).length ≤ t.length := by
            have hc : (!isPathSeparator c) = true := by simpa using hsep
            simp only [List.dropWhile_cons, hc, if_true]
            exact length_dropWhile_le _ t
          split
          · exact ih n2 t out dotdot ht1 ht2
          · split
            · split
              · cases out with
                | nil => exact ih n2 _ _ dotdot (hd n ht1) (hd n2 ht2)
                | cons l o => exact ih n2 _ _ dotdot (hd n ht1) (hd n2 ht2)
              · split
                · exact ih n2 _ _ _ (hd n ht1) (hd n2 ht2)
                · exact ih n2 _ _ dotdot (hd n ht1) (hd n2 ht2)
            · exact ih n2 _ _ dotdot (by omega) (by omega)


theorem lookupEntry_setEntry_self (l : List (Path × Node)) (k : Path) (n : Node) :
    lookupEntry (setEntry l k n) k = some n := by
  induction l with
  | nil => simp [setEntry, lookupEntry]
  | cons a t ih =>
    obtain ⟨k0, m⟩ := a
    by_cases hk : k0 = k
    · simp [setEntry, lookupEntry, hk]
    · simp [setEntry, lookupEntry, hk, ih]

theorem lookupEntry_setEntry_ne (l : List (Path × Node)) (k k2 : Path) (n : Node) (h : k2 ≠ k) :
    lookupEntry (setEntry l k n) k2 = lookupEntry l k2 := by
  induction l with
  | nil => simp [setEntry, lookupEntry, h.symm]
  | cons a t ih =>
    obtain ⟨k0, m⟩ := a
    by_cases hk : k0 = k
    · subst hk
      simp [setEntry, lookupEntry, h.symm]
    · by_cases hk2 : k0 = k2
      · subst hk2
        simp [setEntry, lookupEntry, hk]
      · simp [setEntry, lookupEntry, hk, hk2, ih]

theorem fsLookup_fsSet_self (fs : FS) (k : Path) (n : Node) :
    fsLookup (fsSet fs k n) k = some n :=
  lookupEntry_setEntry_self fs.entries k n

theorem fsLookup_fsSet_ne (fs : FS) (k k2 : Path) (n : Node) (h : k2 ≠ k) :
    fsLookup (fsSet fs k n) k2 = fsLookup fs k2 :=
  lookupEntry_setEntry_ne fs.entries k k2 n h

/-- Creating a node at a free location keeps every node that was there. -/
theorem fsLookup_fsSet_mono (fs : FS) (k : Path) (x : Node) (hfree : fsLookup fs k = none) :
    ∀ k2 n, fsLookup fs k2 = some n → fsLookup (fsSet fs k x) k2 = some n := by
  intro k2 n h
  have hne : k2 ≠ k := by
    intro hk
    rw [hk, hfree] at h
    exact Option.noConfusion h
  rw [fsLookup_fsSet_ne fs k k2 x hne]
  exact h

theorem walkSeg_nil (fs : FS) (follow : Bool) (cur : Path) :
    walkSeg fs follow cur [] =
      match fsLookup fs cur with
      | some n => WalkResult.found cur n
      | none => WalkResult.failed Errno.ENOENT := by
  rw [walkSeg]

theorem walkSeg_cons (fs : FS) (follow : Bool) (cur : Path) (c : GoString)
    (rest : List GoString) :
    walkSeg fs follow cur (c :: rest) =
      if c = [] ∨ c = ".".toList then walkSeg fs follow cur rest
      else if c = "..".toList then walkSeg fs follow cur.dropLast rest
      else
        match fsLookup fs (cur ++ [c]) with
        | none => WalkResult.failed Errno.ENOENT
        | some (Node.dir _) => walkSeg fs follow (cur ++ [c]) rest
        | some (Node.file m) =>
          if rest = [] then WalkResult.found (cur ++ [c]) (Node.file m)
          else WalkResult.failed Errno.ENOTDIR
        | some (Node.symlink t) =>
          if rest = [] ∧ follow = false then WalkResult.found (cur ++ [c]) (Node.symlink t)
          else WalkResult.link cur t rest := by
  rw [walkSeg]

/-- A walk that reached a directory goes on from there with the components
appended to the path, also in a filesystem that holds more nodes. -/
theorem walkSeg_append (fs fs2 : FS)
    (hmono : ∀ k n, fsLookup fs k = some n → fsLookup fs2 k = some n)
    (tail : List GoString) :
    ∀ (comps : List GoString) (cur : Path),
      (∀ d m, walkSeg fs true cur comps = WalkResult.found d (Node.dir m) →
        walkSeg fs2 true cur (comps ++ tail) = walkSeg fs2 true d tail) ∧
      (∀ c t rest, walkSeg fs true cur comps = WalkResult.link c t rest →
        walkSeg fs2 true cur (comps ++ tail) = WalkResult.link c t (rest ++ tail)) := by
  intro comps
  induction comps with
  | nil =>
    intro cur
    constructor
    · intro d m h
      rw [walkSeg_nil] at h
      cases hl : fsLookup fs cur with
      | none => rw [hl] at h; exact WalkResult.noConfusion h
      | some n =>
        rw [hl] at h
        simp only [WalkResult.found.injEq] at h
        rw [← h.1]
        rfl
    · intro c t rest h
      rw [walkSeg_nil] at h
      cases hl : fsLookup fs cur with
      | none => rw [hl] at h; exact WalkResult.noConfusion h
      | some n => rw [hl] at h; exact WalkResult.noConfusion h
  | cons c rest ih =>
    intro cur
    rw [List.cons_append, walkSeg_cons fs, walkSeg_cons fs2]
    by_cases h1 : c = [] ∨ c = ".".toList
    · rw [if_pos h1, if_pos h1]
      exact ih cur
    · rw [if_neg h1, if_neg h1]
      by_cases h2 : c = "..".toList
      · rw [if_pos h2, if_pos h2]
        exact ih cur.dropLast
      · rw [if_neg h2, if_neg h2]
        cases hl : fsLookup fs (cur ++ [c]) with
        | none =>
          constructor
          · intro d m h; exact WalkResult.noConfusion h
          · intro c2 t rest2 h; exact WalkResult.noConfusion h
        | some x =>
          rw [hmono _ _ hl]
          cases x with
          | dir m0 => exact ih (cur ++ [c])
          | file m0 =>
            constructor
            · intro d m h
              dsimp only at h
              by_cases hr : rest = []
              · rw [if_pos hr] at h
                simp only [WalkResult.found.injEq] at h
                exact Node.noConfusion h.2
              · rw [if_neg hr] at h
                exact WalkResult.noConfusion h
            · intro c2 t rest2 h
              dsimp only at h
              by_cases hr : rest = []
              · rw [if_pos hr] at h; exact WalkResult.noConfusion h
              · rw [if_neg hr] at h; exact WalkResult.noConfusion h
          | symlink t0 =>
            have hf : ¬ (rest = [] ∧ true = false) := fun hh => Bool.noConfusion hh.2
            have hf2 : ¬ (rest ++ tail = [] ∧ true = false) := fun hh => Bool.noConfusion hh.2
            dsimp only
            rw [if_neg hf, if_neg hf2]
            constructor
            · intro d m h; exact WalkResult.noConfusion h
            · intro c2 t rest2 h
              simp only [WalkResult.link.injEq] at h
              obtain ⟨rfl, rfl, rfl⟩ := h
              rfl

theorem walk_append (fs fs2 : FS)
    (hmono : ∀ k n, fsLookup fs k = some n → fsLookup fs2 k = some n)
    (tail : List GoString) :
    ∀ (budget : Nat) (cur : Path) (comps : List GoString) (d : Path) (m : Nat),
      walk fs true budget cur comps = .ok (d, Node.dir m) →
      ∀ p n, walkSeg fs2 true d tail = WalkResult.found p n →
        walk fs2 true budget cur (comps ++ tail) = .ok (p, n) := by
  intro budget
  induction budget with
  | zero =>
    intro cur comps d m h p n ht
    have hA := walkSeg_append fs fs2 hmono tail comps cur
    unfold walk at h ⊢
    cases hw : walkSeg fs true cur comps with
    | found loc node =>
      rw [hw] at h
      simp only [Except.ok.injEq, Prod.mk.injEq] at h
      obtain ⟨rfl, rfl⟩ := h
      rw [hA.1 loc m hw, ht]
    | failed e => rw [hw] at h; exact Except.noConfusion h
    | link c t rest => rw [hw] at h; exact Except.noConfusion h
  | succ b ih =>
    intro cur comps d m h p n ht
    have hA := walkSeg_append fs fs2 hmono tail comps cur
    unfold walk at h ⊢
    cases hw : walkSeg fs true cur comps with
    | found loc node =>
      rw [hw] at h
      simp only [Except.ok.injEq, Prod.mk.injEq] at h
      obtain ⟨rfl, rfl⟩ := h
      rw [hA.1 loc m hw, ht]
    | failed e => rw [hw] at h; exact Except.noConfusion h
    | link c t rest =>
      rw [hw] at h
      rw [hA.2 c t rest hw]
      simp only [] at h ⊢
      by_cases htt : t = []
      · rw [if_pos htt] at h; exact Except.noConfusion h
      · rw [if_neg htt] at h ⊢
        rw [← List.append_assoc]
        exact ih _ _ d m h p n ht

theorem walkSeg_replicate (fs : FS) (follow : Bool) (cur : Path) :
    ∀ k : Nat, walkSeg fs follow cur (List.replicate k []) = walkSeg fs follow cur [] := by
  intro k
  induction k with
  | zero => rfl
  | succ k ih =>
    rw [List.replicate_succ, walkSeg_cons, if_pos (Or.inl rfl)]
    exact ih

theorem dropTrailingEmpty_split (l : List GoString) :
    ∃ k, l = dropTrailingEmpty l ++ List.replicate k [] := by
  have h := List.takeWhile_append_dropWhile (fun c : GoString => c.isEmpty) l.reverse
  have hall : ∀ x, x ∈ (l.reverse.takeWhile (fun c : GoString => c.isEmpty)).reverse → x = [] := by
    intro x hx
    have hx2 := List.mem_takeWhile_imp (List.mem_reverse.mp hx)
    simpa using hx2
  refine ⟨(l.reverse.takeWhile (fun c : GoString => c.isEmpty)).reverse.length, ?_⟩
  rw [← List.eq_replicate_of_mem hall]
  unfold dropTrailingEmpty
  rw [← List.reverse_append, h, List.reverse_reverse]

theorem dropTrailingEmpty_getLast (l : List GoString) (name : GoString)
    (h : (dropTrailingEmpty l).getLast? = some name) : name ≠ [] := by
  unfold dropTrailingEmpty at h
  rw [List.getLast?_reverse] at h
  intro hn
  subst hn
  cases hd : l.reverse.dropWhile (fun c : GoString => c.isEmpty) with
  | nil => rw [hd] at h; simp at h
  | cons a t =>
    rw [hd] at h
    simp only [List.head?_cons, Option.some.injEq] at h
    subst h
    have := List.head_dropWhile_not (fun c : GoString => c.isEmpty) l.reverse
      (by rw [hd]; simp)
    simp [hd] at this

/-- What a successful `os.Mkdir` did: the parent resolved to a directory, the
last name was free there, and the new directory stands under that name. -/
theorem osMkdir_ok (umask : Nat) (fs fs2 : FS) (path : GoString) (perm : Nat)
    (h : osMkdir umask fs path perm = (fs2, none)) :
    path ≠ [] ∧ ∃ loc m name,
      walk fs true maxSymlinks (startDir fs path)
        (dropTrailingEmpty (stringsSplit path '/')).dropLast = .ok (loc, Node.dir m) ∧
      (dropTrailingEmpty (stringsSplit path '/')).getLast? = some name ∧
      ¬ (name = ".".toList ∨ name = "..".toList) ∧
      fsLookup fs (loc ++ [name]) = none ∧
      fs2 = fsSet fs (loc ++ [name]) (Node.dir (maskedMode perm umask)) := by
  unfold osMkdir at h
  by_cases hp : path = []
  · rw [if_pos hp] at h
    simp only [Prod.mk.injEq] at h
    exact Option.noConfusion h.2
  · rw [if_neg hp] at h
    refine ⟨hp, ?_⟩
    cases hw : walk fs true maxSymlinks (startDir fs path)
        (dropTrailingEmpty (stringsSplit path '/')).dropLast with
    | error e =>
      rw [hw] at h
      simp only [Prod.mk.injEq] at h
      exact Option.noConfusion h.2
    | ok r =>
      obtain ⟨loc, node⟩ := r
      rw [hw] at h
      cases node with
      | dir m =>
        dsimp only at h
        cases hg : (dropTrailingEmpty (stringsSplit path '/')).getLast? with
        | none =>
          rw [hg] at h
          simp only [Prod.mk.injEq] at h
          exact Option.noConfusion h.2
        | some name =>
          rw [hg] at h
          dsimp only at h
          by_cases hn : name = ".".toList ∨ name = "..".toList
          · rw [if_pos hn] at h
            simp only [Prod.mk.injEq] at h
            exact Option.noConfusion h.2
          · rw [if_neg hn] at h
            cases hl : fsLookup fs (loc ++ [name]) with
            | some x =>
              rw [hl] at h
              simp only [Prod.mk.injEq] at h
              exact Option.noConfusion h.2
            | none =>
              rw [hl] at h
              simp only [Prod.mk.injEq, and_true] at h
              exact ⟨loc, m, name, rfl, rfl, hn, hl, h.symm⟩
      | file m =>
        simp only [Prod.mk.injEq] at h
        exact Option.noConfusion h.2
      | symlink t =>
        simp only [Prod.mk.injEq] at h
        exact Option.noConfusion h.2

/-- After a successful `os.Mkdir` the path names a directory. -/
theorem osMkdir_ok_isDirectory (umask : Nat) (fs fs2 : FS) (path : GoString) (perm : Nat)
    (h : osMkdir umask fs path perm = (fs2, none)) : isDirectory fs2 path = true := by
  obtain ⟨hp, loc, m, name, hw, hg, hn, hl, hfs⟩ := osMkdir_ok umask fs fs2 path perm h
  obtain ⟨k, hk⟩ := dropTrailingEmpty_split (stringsSplit path '/')
  have hne : name ≠ [] := dropTrailingEmpty_getLast _ name hg
  have hsplit : stringsSplit path '/' =
      (dropTrailingEmpty (stringsSplit path '/')).dropLast ++ (name :: List.replicate k []) := by
    have h1 := List.dropLast_append_getLast? name (by rw [hg]; exact rfl)
    calc stringsSplit path '/'
        = dropTrailingEmpty (stringsSplit path '/') ++ List.replicate k [] := hk
      _ = ((dropTrailingEmpty (stringsSplit path '/')).dropLast ++ [name]) ++
            List.replicate k [] := by rw [h1]
      _ = _ := by simp
  have hmono := fsLookup_fsSet_mono fs (loc ++ [name]) (Node.dir (maskedMode perm umask)) hl
  have hseg : walkSeg fs2 true loc (name :: List.replicate k []) =
      WalkResult.found (loc ++ [name]) (Node.dir (maskedMode perm umask)) := by
    have hn1 : ¬ (name = [] ∨ name = ".".toList) := fun hh =>
      hh.elim hne (fun h2 => hn (Or.inl h2))
    have hn2 : ¬ name = "..".toList := fun h2 => hn (Or.inr h2)
    have hself : fsLookup fs2 (loc ++ [name]) = some (Node.dir (maskedMode perm umask)) := by
      rw [hfs]; exact fsLookup_fsSet_self _ _ _
    rw [walkSeg_cons, if_neg hn1, if_neg hn2, hself]
    dsimp only
    rw [walkSeg_replicate, walkSeg_nil, hself]
  have hcwd : startDir fs2 path = startDir fs path := by rw [hfs]; rfl
  have hfinal := walk_append fs fs2 (by rw [hfs]; exact hmono) (name :: List.replicate k [])
    maxSymlinks (startDir fs path) _ loc m hw _ _ hseg
  unfold isDirectory osStat namei
  rw [if_neg hp, hcwd, hsplit, hfinal]

theorem walkSeg_nofollow (fs : FS) :
    ∀ (comps : List GoString) (cur : Path),
      (∀ p m, walkSeg fs false cur comps = WalkResult.found p (Node.dir m) →
        walkSeg fs true cur comps = WalkResult.found p (Node.dir m)) ∧
      (∀ c t rest, walkSeg fs false cur comps = WalkResult.link c t rest →
        walkSeg fs true cur comps = WalkResult.link c t rest) := by
  intro comps
  induction comps with
  | nil =>
    intro cur
    rw [walkSeg_nil, walkSeg_nil]
    exact ⟨fun _ _ h => h, fun _ _ _ h => h⟩
  | cons c rest ih =>
    intro cur
    rw [walkSeg_cons fs false, walkSeg_cons fs true]
    by_cases h1 : c = [] ∨ c = ".".toList
    · rw [if_pos h1, if_pos h1]
      exact ih cur
    · rw [if_neg h1, if_neg h1]
      by_cases h2 : c = "..".toList
      · rw [if_pos h2, if_pos h2]
        exact ih cur.dropLast
      · rw [if_neg h2, if_neg h2]
        cases hl : fsLookup fs (cur ++ [c]) with
        | none => exact ⟨fun _ _ h => h, fun _ _ _ h => h⟩
        | some x =>
          cases x with
          | dir m0 => exact ih (cur ++ [c])
          | file m0 => exact ⟨fun _ _ h => h, fun _ _ _ h => h⟩
          | symlink t0 =>
            dsimp only
            have hf : ¬ (rest = [] ∧ true = false) := fun hh => Bool.noConfusion hh.2
            rw [if_neg hf]
            by_cases hr : rest = []
            · have ht : rest = [] ∧ false = false := ⟨hr, rfl⟩
              rw [if_pos ht]
              constructor
              · intro p m h
                simp only [WalkResult.found.injEq] at h
                exact Node.noConfusion h.2
              · intro c2 t rest2 h; exact WalkResult.noConfusion h
            · have ht : ¬ (rest = [] ∧ false = false) := fun hh => hr hh.1
              rw [if_neg ht]
              exact ⟨fun _ _ h => h, fun _ _ _ h => h⟩

/-- A path that `lstat` finds to be a directory is that directory for `stat` too. -/
theorem walk_nofollow (fs : FS) :
    ∀ (budget : Nat) (cur : Path) (comps : List GoString) (p : Path) (m : Nat),
      walk fs false budget cur comps = .ok (p, Node.dir m) →
      walk fs true budget cur comps = .ok (p, Node.dir m) := by
  intro budget
  induction budget with
  | zero =>
    intro cur comps p m h
    have hN := walkSeg_nofollow fs comps cur
    unfold walk at h ⊢
    cases hw : walkSeg fs false cur comps with
    | found loc node =>
      rw [hw] at h
      simp only [Except.ok.injEq, Prod.mk.injEq] at h
      obtain ⟨rfl, rfl⟩ := h
      rw [hN.1 loc m hw]
    | failed e => rw [hw] at h; exact Except.noConfusion h
    | link c t rest => rw [hw] at h; exact Except.noConfusion h
  | succ b ih =>
    intro cur comps p m h
    have hN := walkSeg_nofollow fs comps cur
    unfold walk at h ⊢
    cases hw : walkSeg fs false cur comps with
    | found loc node =>
      rw [hw] at h
      simp only [Except.ok.injEq, Prod.mk.injEq] at h
      obtain ⟨rfl, rfl⟩ := h
      rw [hN.1 loc m hw]
    | failed e => rw [hw] at h; exact Except.noConfusion h
    | link c t rest =>
      rw [hw] at h
      rw [hN.2 c t rest hw]
      simp only [] at h ⊢
      by_cases htt : t = []
      · rw [if_pos htt] at h; exact Except.noConfusion h
      · rw [if_neg htt] at h ⊢
        exact ih _ _ p m h

theorem osLstat_dir_isDirectory (fs : FS) (path : GoString) (m : Nat)
    (h : osLstat fs path = .ok (Node.dir m)) : isDirectory fs path = true := by
  unfold osLstat namei at h
  unfold isDirectory osStat namei
  by_cases hp : path = []
  · rw [if_pos hp] at h; exact Except.noConfusion h
  · rw [if_neg hp] at h ⊢
    cases hw : walk fs false maxSymlinks (startDir fs path) (stringsSplit path '/') with
    | error e => rw [hw] at h; exact Except.noConfusion h
    | ok r =>
      obtain ⟨loc, node⟩ := r
      rw [hw] at h
      simp only [Except.ok.injEq] at h
      subst h
      rw [walk_nofollow fs _ _ _ loc m hw]

/-- When `os.MkdirAll` returns no error the path names a directory. -/
theorem osMkdirAllAux_ok (umask : Nat) :
    ∀ (fuel : Nat) (fs fs2 : FS) (path : GoString) (perm : Nat),
      osMkdirAllAux umask fuel fs path perm = (fs2, none) → isDirectory fs2 path = true := by
  intro fuel fs fs2 path perm h
  cases fuel with
  | zero =>
    simp only [osMkdirAllAux, Prod.mk.injEq] at h
    exact Option.noConfusion h.2
  | succ n =>
    unfold osMkdirAllAux at h
    cases hst : osStat fs path with
    | ok node =>
      rw [hst] at h
      cases node with
      | dir m =>
        simp only [Prod.mk.injEq, and_true] at h
        subst h
        unfold isDirectory
        rw [hst]
      | file m =>
        simp only [Prod.mk.injEq] at h
        exact Option.noConfusion h.2
      | symlink t =>
        simp only [Prod.mk.injEq] at h
        exact Option.noConfusion h.2
    | error e =>
      rw [hst] at h
      dsimp only at h
      cases hr : (if mkdirAllScan path > 1 then
          osMkdirAllAux umask n fs (List.take (mkdirAllScan path - 1) path) perm
        else (fs, none)) with
      | mk fs1 e1 =>
        rw [hr] at h
        cases e1 with
        | some e2 =>
          simp only [Prod.mk.injEq] at h
          exact Option.noConfusion h.2
        | none =>
          dsimp only at h
          cases hmk : osMkdir umask fs1 path perm with
          | mk fs3 e3 =>
            rw [hmk] at h
            cases e3 with
            | none =>
              simp only [Prod.mk.injEq, and_true] at h
              subst h
              exact osMkdir_ok_isDirectory umask fs1 fs3 path perm hmk
            | some e4 =>
              dsimp only at h
              cases hls : osLstat fs3 path with
              | error e5 =>
                rw [hls] at h
                simp only [Prod.mk.injEq] at h
                exact Option.noConfusion h.2
              | ok node =>
                rw [hls] at h
                cases node with
                | dir m =>
                  simp only [Prod.mk.injEq, and_true] at h
                  subst h
                  exact osLstat_dir_isDirectory fs3 path m hls
                | file m =>
                  simp only [Prod.mk.injEq] at h
                  exact Option.noConfusion h.2
                | symlink t =>
                  simp only [Prod.mk.injEq] at h
                  exact Option.noConfusion h.2

/-- The model of `os.MkdirAll` resolves component by component: through a
regular file it fails with `ENOTDIR` and creates nothing; through a missing
directory followed by `..` it creates that directory as well; at a dangling
symbolic link it fails with `EEXIST`. -/
theorem osMkdirAll_by_component :
    osMkdirAll 0o022 fileAtFile "/file/../data".toList 0o755 =
      (fileAtFile, some Errno.ENOTDIR) ∧
    osMkdirAll 0o022 rootOnly "/nonexist/../data".toList 0o755 =
      ({ cwd := [],
         entries := [([], Node.dir 0o755), (["nonexist".toList], Node.dir 0o755),
           (["data".toList], Node.dir 0o755)] }, none) ∧
    osMkdirAll 0o022 danglingLink "/link".toList 0o755 = (danglingLink, some Errno.EEXIST) ∧
    osStat danglingLink "/link".toList = .error Errno.ENOENT ∧
    osChmod danglingLink "/link".toList 0o755 = (danglingLink, some Errno.ENOENT) := by
  decide

/-- C8, as stated, fails: when the target `/data` is a regular file,
`os.MkdirAll` fails with `ENOTDIR`, the error is discarded, and the mount is
invoked although the target is not a directory at that moment. -/
theorem eventsProcess_target_counterexample :
    mountTarget sampleDeviceEvent = "/data".toList ∧
    (osMkdirAll 0o022 fileAtData "/data".toList 0o755).2 = some Errno.ENOTDIR ∧
    eventsProcess sampleUnmarshal 0o022 alwaysSucceeds fileAtData sampleEvent =
      [⟨fileAtData, Effect.mkdirAll "/data".toList 0o755⟩,
       ⟨fileAtData, Effect.runCommand "mount".toList
          ["-t".toList, "virtiofs".toList, "lxd_disk0".toList, "/data".toList]⟩,
       ⟨fileAtData, Effect.logInfo "Mounted hotplug".toList
          [("type".toList, "virtiofs".toList), ("source".toList, "lxd_disk0".toList),
            ("path".toList, "data".toList)]⟩] ∧
    isDirectory fileAtData "/data".toList = false := by
  decide

/-- C8, amended: for a qualifying device event `eventsProcess` first calls
`os.MkdirAll` on the target with mode 0755 and discards its result; every
mount invocation runs in the filesystem that call left; whenever the call
returned no error the target is a directory at every mount invocation, and a
target that is a directory beforehand is not an error and leaves the
filesystem unchanged; the mount is attempted whether or not the call
failed. -/
theorem eventsProcess_target_directory (unmarshal : GoString → Option deviceEvent)
    (umask : Nat) (mount : Nat → Option GoString) (fs : FS) (event : Event) (e : deviceEvent)
    (h : Qualifies unmarshal event e) :
    (eventsProcess unmarshal umask mount fs event).head? =
      some ⟨fs, Effect.mkdirAll (mountTarget e) 0o755⟩ ∧
    (∀ s, s ∈ eventsProcess unmarshal umask mount fs event → s.eff.isMount = true →
      s.fs = (osMkdirAll umask fs (mountTarget e) 0o755).1 ∧
      ((osMkdirAll umask fs (mountTarget e) 0o755).2 = none →
        isDirectory s.fs (mountTarget e) = true)) ∧
    (isDirectory fs (mountTarget e) = true →
      osMkdirAll umask fs (mountTarget e) 0o755 = (fs, none)) ∧
    1 ≤ countEffects Effect.isMount (eventsProcess unmarshal umask mount fs event) := by
  have h5 := eventsProcess_qualifies_counts unmarshal umask mount fs event e h
  refine ⟨?_, ?_, ?_, h5.2⟩
  · rw [eventsProcess_of_qualifies unmarshal umask mount fs event e h]
    rfl
  · rw [eventsProcess_of_qualifies unmarshal umask mount fs event e h]
    intro s hs hm
    rcases List.mem_cons.mp hs with rfl | hs
    · simp [Effect.isMount] at hm
    · have hfs := (mountLoop_steps mount _ _ _ _ 0 none s hs).1
      refine ⟨hfs, ?_⟩
      intro hok
      rw [hfs]
      apply osMkdirAllAux_ok umask ((mountTarget e).length + 1) fs _ (mountTarget e) 0o755
      exact Prod.ext rfl hok
  · intro hd
    unfold isDirectory at hd
    unfold osMkdirAll osMkdirAllAux
    cases hst : osStat fs (mountTarget e) with
    | error err => rw [hst] at hd; exact Bool.noConfusion hd
    | ok node =>
      rw [hst] at hd
      cases node with
      | dir m => rfl
      | file m => exact Bool.noConfusion hd
      | symlink t => exact Bool.noConfusion hd

/-- C8 amended, at a concrete input: with the root directory only, the call
creates `/data` and the mount runs with `/data` a directory. -/
theorem eventsProcess_target_directory_witness :
    Qualifies sampleUnmarshal sampleEvent sampleDeviceEvent ∧
      (osMkdirAll 0o022 rootOnly (mountTarget sampleDeviceEvent) 0o755).2 = none ∧
      ∀ s, s ∈ eventsProcess sampleUnmarshal 0o022 alwaysSucceeds rootOnly sampleEvent →
        s.eff.isMount = true → isDirectory s.fs (mountTarget sampleDeviceEvent) = true :=
  ⟨sample_qualifies, by decide,
    fun s hs hm =>
      ((eventsProcess_target_directory sampleUnmarshal 0o022 alwaysSucceeds rootOnly sampleEvent
        sampleDeviceEvent sample_qualifies).2.1 s hs hm).2 (by decide)⟩

theorem mkdirAllScan_le (path : GoString) : mkdirAllScan path ≤ path.length := by
  unfold mkdirAllScan
  have h1 := length_dropWhile_le (fun c => !isPathSeparator c)
    (path.take (mkdirAllSkip path)).reverse
  have h2 : (path.take (mkdirAllSkip path)).reverse.length ≤ path.length := by
    rw [List.length_reverse, List.length_take]
    exact Nat.min_le_right _ _
  omega

/-- The fuel of `osMkdirAllAux` never runs out: any two amounts of fuel above
the length of the path give the same result, so `ENAMETOOLONG` is never
returned by `osMkdirAll`. -/
theorem osMkdirAllAux_fuel (umask : Nat) :
    ∀ (fuel fuel2 : Nat) (fs : FS) (path : GoString) (perm : Nat),
      path.length < fuel → path.length < fuel2 →
      osMkdirAllAux umask fuel fs path perm = osMkdirAllAux umask fuel2 fs path perm := by
  intro fuel
  induction fuel with
  | zero => intro fuel2 fs path perm h1; omega
  | succ n ih =>
    intro fuel2 fs path perm h1 h2
    cases fuel2 with
    | zero => omega
    | succ n2 =>
      unfold osMkdirAllAux
      by_cases hpar : mkdirAllScan path > 1
      · have hle := mkdirAllScan_le path
        have hlt : (path.take (mkdirAllScan path - 1)).length < path.length := by
          rw [List.length_take]
          have := Nat.min_le_left (mkdirAllScan path - 1) path.length
          omega
        have hih := ih n2 fs (path.take (mkdirAllScan path - 1)) perm (by omega) (by omega)
        simp only [hih]
      · simp only [hpar, if_false]

/-- C10: the code at the failing inputs.  With umask 077 and none of the listed
directories present, `initDirs` returns no error and creates
`/var/lib/lxd/containers` with mode 0700, not the listed 0711; a second call
returns no error and changes the mode to 0711, so it does not leave the
filesystem as the first call left it.  With a regular file at
`/var/lib/lxd/devlxd`, and with a dangling symbolic link at `/var/log/lxd`,
`initDirs` returns no error although that listed path is not a directory. -/
theorem initDirs_failing_inputs :
    (initDirs sampleOS 0o077 sampleVar).2 = none ∧
    (filepathJoin [sampleOS.VarDir, "containers".toList], 0o711) ∈ initDirsTable sampleOS ∧
    osStat (initDirs sampleOS 0o077 sampleVar).1 "/var/lib/lxd/containers".toList =
      .ok (Node.dir 0o700) ∧
    (initDirs sampleOS 0o077 (initDirs sampleOS 0o077 sampleVar).1).2 = none ∧
    osStat (initDirs sampleOS 0o077 (initDirs sampleOS 0o077 sampleVar).1).1
      "/var/lib/lxd/containers".toList = .ok (Node.dir 0o711) ∧
    (initDirs sampleOS 0o077 (initDirs sampleOS 0o077 sampleVar).1).1 ≠
      (initDirs sampleOS 0o077 sampleVar).1 ∧
    (initDirs sampleOS 0o022 sampleVarWithFile).2 = none ∧
    ("/var/lib/lxd/devlxd".toList, 0o755) ∈ initDirsTable sampleOS ∧
    osStat (initDirs sampleOS 0o022 sampleVarWithFile).1 "/var/lib/lxd/devlxd".toList =
      .ok (Node.file 0o755) ∧
    (initDirs sampleOS 0o022 sampleVarWithLink).2 = none ∧
    ("/var/log/lxd".toList, 0o700) ∈ initDirsTable sampleOS ∧
    osStat (initDirs sampleOS 0o022 sampleVarWithLink).1 "/var/log/lxd".toList =
      .error Errno.ENOENT := by
  decide

end LxdAgent
